import Mathlib

/-! Verification of `ccbase/dispatch_queue.h`.

A shallow embedding of the `ccb::DispatchQueue<T, kMaxProducers, kMaxConsumers>`
template (file `src/ccbase/dispatch_queue.h`) and proofs about it.

Modelling conventions:
* `size_t` values are modelled as `Nat`.  On the 64-bit platforms the code
  targets, none of the loop arithmetic can overflow `2^64` (indices stay far
  below it), so plain `Nat` arithmetic is faithful.  The member initializer
  `cur_index_(-1U)` stores the `unsigned int` value `-1U = 4294967295` into a
  `size_t`, so the initial cursor is the concrete number `4294967295`.
* Heap objects are arena-indexed: the `FastQueue` objects created by the
  dispatch queue live in a list `chans : List Chan` and a "pointer" to a
  queue is its index; a null pointer in a `queue_vec_` slot is `none`.
  Producer/consumer objects live in the lists `producers` / `consumers`
  at the index equal to their slot, matching `producers_[i]` / `consumers_[j]`
  (a slot `≥ count` holds the null pointer, modelled by `getElem?` = `none`).
* Transported values of type `T` are modelled as `Nat` (the code is generic
  and never inspects them; the `T&&` overloads move the same value and are
  semantically identical to the `const T&` overloads in this value model).
* C++ exceptions (`std::logic_error`, `std::invalid_argument`), the failed
  `assert`, and undefined behaviour (out-of-bounds array reads, null/dangling
  dereference) are modelled as explicit `Err` results; every operation also
  returns the object state as of the moment the error was raised.
-/

namespace CCB

/-- Modelled from the spec: the external collaborator `FastQueue<T, false>`
(file `ccbase/fast_queue.h`, not part of the analysed sources) is a bounded
single-writer/single-reader FIFO with a capacity fixed at construction,
`Push` returning `false` when full and `Pop` returning `false` when empty.
`buf` holds the queued values, oldest first. -/
structure Chan where
  cap : Nat
  buf : List Nat
deriving Repr, DecidableEq

/-- Modelled from the spec: non-blocking `FastQueue::Push` — appends when the
queue is not full, otherwise fails and leaves the queue unchanged. -/
def Chan.push (c : Chan) (v : Nat) : Bool × Chan :=
  if c.buf.length < c.cap then (true, ⟨c.cap, c.buf ++ [v]⟩) else (false, c)

/-- Modelled from the spec: non-blocking `FastQueue::Pop` — yields the oldest
value when the queue is not empty, otherwise fails. -/
def Chan.pop (c : Chan) : Option Nat × Chan :=
  match c.buf with
  | [] => (none, c)
  | v :: rest => (some v, ⟨c.cap, rest⟩)

/-- The `unsigned int` constant `-1U` as stored into a 64-bit `size_t`
(member initializers `cur_index_(-1U)`). -/
def neg1U : Nat := 4294967295

/-- `Consumer::kMaxStickyReadCnt`. -/
def kMaxStickyReadCnt : Nat := 32

/-- Errors: the first three are the C++ exceptions thrown by the code, the
fourth is the `assert` in `RegisterProducer`, the last two are undefined
behaviour (reading `queue_vec_` past its end, dereferencing a null or
dangling `Queue*`). -/
inductive Err where
  | pushUnregistered
  | invalidUnregister
  | doubleUnregister
  | assertFailed
  | oobRead
  | nullDeref
deriving Repr, DecidableEq

/-- State of a `DispatchQueue::Producer` object.  `queue_vec` has length
`kMaxConsumers`; entry `j` is the pointer stored in `queue_vec_[j]`. -/
structure Producer where
  producer_index : Nat
  is_registered : Bool
  cur_index : Nat
  queue_vec : List (Option Nat)
deriving Repr, DecidableEq

/-- State of a `DispatchQueue::Consumer` object.  `queue_vec` has length
`kMaxProducers`. -/
structure Consumer where
  consumer_index : Nat
  cur_index : Nat
  cur_index_read_cnt : Nat
  queue_vec : List (Option Nat)
deriving Repr, DecidableEq

/-- Result of one of the two scan loops inside `Producer::Push(const T&)`:
either a queue accepted the value (at row index `curIdx`, with the updated
channel arena), or the loop ended without success leaving `cur_index_ =
curIdx`, or undefined behaviour was reached with `cur_index_ = curIdx`. -/
inductive ScanRes where
  | ok (curIdx : Nat) (chans : List Chan)
  | fail (curIdx : Nat)
  | err (e : Err) (curIdx : Nat)
deriving Repr, DecidableEq

/-- First loop of `Producer::Push`:
`for (cur_index_++; cur_index_ < kMaxConsumers; cur_index_++)` — the caller
passes the already incremented start index `i` together with the remaining
iteration count `fuel = kMaxConsumers - i` (so `fuel = 0` is exactly the
exit condition `i ≥ kMaxConsumers`).  Reading `queue_vec_[i]` for
`i < kMaxConsumers` is in bounds, so a missing entry means the row is
shorter than `kMaxConsumers` (a malformed handle). -/
def pushLoop1 (row : List (Option Nat)) (v : Nat)
    (chans : List Chan) : Nat → Nat → ScanRes
  | 0, i => .fail i
  | fuel + 1, i =>
    match row[i]? with
    | none => .err .oobRead i
    | some none => .fail i
    | some (some id) =>
      match chans[id]? with
      | none => .err .nullDeref i
      | some ch =>
        let r := ch.push v
        if r.1 then .ok i (chans.set id r.2)
        else pushLoop1 row v chans fuel (i + 1)

/-- Second loop of `Producer::Push`:
`for (cur_index_ = 0; cur_index_ <= last_index; cur_index_++)`, with
`fuel = last_index + 1 - i` (`fuel = 0` is exactly the exit condition
`i > last_index`) — note the loop bound is `last_index`, not
`kMaxConsumers`, so when `last_index` exceeds the row length the loop can
read `queue_vec_` out of bounds. -/
def pushLoop2 (row : List (Option Nat)) (v : Nat)
    (chans : List Chan) : Nat → Nat → ScanRes
  | 0, i => .fail i
  | fuel + 1, i =>
    match row[i]? with
    | none => .err .oobRead i
    | some none => .fail i
    | some (some id) =>
      match chans[id]? with
      | none => .err .nullDeref i
      | some ch =>
        let r := ch.push v
        if r.1 then .ok i (chans.set id r.2)
        else pushLoop2 row v chans fuel (i + 1)

deriving instance DecidableEq for Except

/-- Result of a producer-side operation: the C++ return value (or the raised
error), together with the producer object and channel arena states. -/
structure PushOut where
  res : Except Err Bool
  prod : Producer
  chans : List Chan
deriving Repr, DecidableEq

/-- `Producer::Push(const T& val)` (and the semantically identical `T&&`
overload): throws when unregistered, otherwise scans from `cur_index_ + 1`
to the end of the row, then from `0` to the old `cur_index_` inclusive. -/
def Producer.push (cmax : Nat) (p : Producer) (chans : List Chan) (v : Nat) :
    PushOut :=
  if p.is_registered = false then ⟨.error .pushUnregistered, p, chans⟩
  else
    match pushLoop1 p.queue_vec v chans (cmax - (p.cur_index + 1))
        (p.cur_index + 1) with
    | .ok i chans' => ⟨.ok true, { p with cur_index := i }, chans'⟩
    | .err e i => ⟨.error e, { p with cur_index := i }, chans⟩
    | .fail _ =>
      match pushLoop2 p.queue_vec v chans (p.cur_index + 1) 0 with
      | .ok j chans' => ⟨.ok true, { p with cur_index := j }, chans'⟩
      | .err e j => ⟨.error e, { p with cur_index := j }, chans⟩
      | .fail j => ⟨.ok false, { p with cur_index := j }, chans⟩

/-- `Producer::Push(size_t idx, const T& val)` (and the `T&&` overload):
directed push.  `if (idx < kMaxConsumers) { qptr = queue_vec_[idx]; if (qptr
&& qptr->Push(val)) return true; } return false;` — no cursor update. -/
def Producer.pushIdx (cmax : Nat) (p : Producer) (chans : List Chan)
    (idx : Nat) (v : Nat) : PushOut :=
  if p.is_registered = false then ⟨.error .pushUnregistered, p, chans⟩
  else if idx < cmax then
    match p.queue_vec[idx]? with
    | none => ⟨.error .oobRead, p, chans⟩
    | some none => ⟨.ok false, p, chans⟩
    | some (some id) =>
      match chans[id]? with
      | none => ⟨.error .nullDeref, p, chans⟩
      | some ch =>
        let r := ch.push v
        if r.1 then ⟨.ok true, p, chans.set id r.2⟩
        else ⟨.ok false, p, chans⟩
  else ⟨.ok false, p, chans⟩

/-- Result of one of the two scan loops inside `Consumer::Pop`. -/
inductive PopScanRes where
  | ok (curIdx : Nat) (v : Nat) (chans : List Chan)
  | fail (curIdx : Nat)
  | err (e : Err) (curIdx : Nat)
deriving Repr, DecidableEq

/-- First loop of `Consumer::Pop`:
`for (cur_index_++; cur_index_ < kMaxProducers; cur_index_++)`, with
`fuel = kMaxProducers - i` as in `pushLoop1`. -/
def popLoop1 (row : List (Option Nat)) (chans : List Chan) :
    Nat → Nat → PopScanRes
  | 0, i => .fail i
  | fuel + 1, i =>
    match row[i]? with
    | none => .err .oobRead i
    | some none => .fail i
    | some (some id) =>
      match chans[id]? with
      | none => .err .nullDeref i
      | some ch =>
        match ch.pop with
        | (some v, ch') => .ok i v (chans.set id ch')
        | (none, _) => popLoop1 row chans fuel (i + 1)

/-- Second loop of `Consumer::Pop`:
`for (cur_index_ = 0; cur_index_ <= last_index; cur_index_++)`, with
`fuel = last_index + 1 - i` as in `pushLoop2` — again bounded only by
`last_index`. -/
def popLoop2 (row : List (Option Nat)) (chans : List Chan) :
    Nat → Nat → PopScanRes
  | 0, i => .fail i
  | fuel + 1, i =>
    match row[i]? with
    | none => .err .oobRead i
    | some none => .fail i
    | some (some id) =>
      match chans[id]? with
      | none => .err .nullDeref i
      | some ch =>
        match ch.pop with
        | (some v, ch') => .ok i v (chans.set id ch')
        | (none, _) => popLoop2 row chans fuel (i + 1)

/-- Result of a consumer-side operation: `.ok (some v)` models `Pop`
returning `true` with `*ptr = v`; `.ok none` models returning `false`. -/
structure PopOut where
  res : Except Err (Option Nat)
  cons : Consumer
  chans : List Chan
deriving Repr, DecidableEq

/-- The round-robin part of `Consumer::Pop` (everything after the sticky
block, entered with `cur_index_read_cnt_` already reset to 0). -/
def Consumer.popScan (pmax : Nat) (c : Consumer) (chans : List Chan) :
    PopOut :=
  match popLoop1 c.queue_vec chans (pmax - (c.cur_index + 1))
      (c.cur_index + 1) with
  | .ok i v chans' =>
    ⟨.ok (some v), { c with cur_index := i, cur_index_read_cnt := 1 }, chans'⟩
  | .err e i => ⟨.error e, { c with cur_index := i }, chans⟩
  | .fail _ =>
    match popLoop2 c.queue_vec chans (c.cur_index + 1) 0 with
    | .ok j v chans' =>
      ⟨.ok (some v), { c with cur_index := j, cur_index_read_cnt := 1 },
        chans'⟩
    | .err e j => ⟨.error e, { c with cur_index := j }, chans⟩
    | .fail j => ⟨.ok none, { c with cur_index := j }, chans⟩

/-- `Consumer::Pop(T* ptr)`: the sticky fast path (which dereferences
`queue_vec_[cur_index_]` without a null check) followed, on a sticky miss or
when the sticky counter is 0 or has reached `kMaxStickyReadCnt`, by the
round-robin scan with the counter reset to 0. -/
def Consumer.pop (pmax : Nat) (c : Consumer) (chans : List Chan) : PopOut :=
  if 0 < c.cur_index_read_cnt ∧ c.cur_index_read_cnt < kMaxStickyReadCnt then
    match c.queue_vec[c.cur_index]? with
    | none => ⟨.error .oobRead, c, chans⟩
    | some none => ⟨.error .nullDeref, c, chans⟩
    | some (some id) =>
      match chans[id]? with
      | none => ⟨.error .nullDeref, c, chans⟩
      | some ch =>
        match ch.pop with
        | (some v, ch') =>
          ⟨.ok (some v),
            { c with cur_index_read_cnt := c.cur_index_read_cnt + 1 },
            chans.set id ch'⟩
        | (none, _) =>
          Consumer.popScan pmax { c with cur_index_read_cnt := 0 } chans
  else Consumer.popScan pmax { c with cur_index_read_cnt := 0 } chans

/-- `Consumer::PopWait(T* ptr, int timeout)`, fuel-indexed: each recursive
step is one `Pop` attempt followed (on failure, when the timeout has not yet
expired) by `usleep(1000); sleep_ms++`.  `none` means the loop is still
running after `fuel` attempts; a raised UB error propagates. -/
def Consumer.popWaitAux (pmax : Nat) (timeout : Int) :
    Nat → Nat → Consumer → List Chan → Option PopOut
  | 0, _, _, _ => none
  | fuel + 1, sleepMs, c, chans =>
    let out := Consumer.pop pmax c chans
    match out.res with
    | .error _ => some out
    | .ok (some _) => some out
    | .ok none =>
      if 0 ≤ timeout ∧ timeout ≤ (sleepMs : Int) then
        some ⟨.ok none, out.cons, out.chans⟩
      else Consumer.popWaitAux pmax timeout fuel (sleepMs + 1) out.cons
        out.chans

/-- `Consumer::PopWait` with `int sleep_ms = 0`. -/
def Consumer.popWait (pmax : Nat) (fuel : Nat) (c : Consumer)
    (chans : List Chan) (timeout : Int) : Option PopOut :=
  Consumer.popWaitAux pmax timeout fuel 0 c chans

/-- The `k`-th element of the sequence of `Pop` attempts made from a given
consumer/arena state, threading the state of each attempt into the next —
the attempt sequence `PopWait` steps through. -/
def popSeq (pmax : Nat) : Nat → Consumer → List Chan → PopOut
  | 0, c, chans => Consumer.pop pmax c chans
  | k + 1, c, chans =>
    let out := Consumer.pop pmax c chans
    popSeq pmax k out.cons out.chans

/-- State of a `DispatchQueue` object.  `producers.length` and
`consumers.length` are the counters `producer_count_` / `consumer_count_`
(slots are allocated contiguously and never deallocated); `reclaimed` is the
vector `reclaimed_producers_`; `chans` is the arena of all `FastQueue`
objects ever created (they are never destroyed while the queue lives). -/
structure DQ where
  qlen : Nat
  producers : List Producer
  consumers : List Consumer
  reclaimed : List Nat
  chans : List Chan
deriving Repr, DecidableEq

/-- Update `producers_[i]->queue_vec_[c] = (pointer to) id`.  A missing
producer slot is left untouched (the code only does this for `i <
producer_count_`, where the slot is never null). -/
def setProdEntry (ps : List Producer) (i c id : Nat) : List Producer :=
  match ps[i]? with
  | some p => ps.set i { p with queue_vec := p.queue_vec.set c (some id) }
  | none => ps

/-- Update `consumers_[j]->queue_vec_[pcol] = (pointer to) id`. -/
def setConsEntry (cs : List Consumer) (j pcol id : Nat) : List Consumer :=
  match cs[j]? with
  | some c => cs.set j { c with queue_vec := c.queue_vec.set pcol (some id) }
  | none => cs

/-- The wiring loop of `RegisterConsumer`: for `i` from `0` to `n - 1`,
`queue = new Queue(qlen_); consumer->queue_vec_[i] = queue;
producers_[i]->queue_vec_[cc] = queue;` (ascending loop written with the
last iteration outermost: `regConsLoop (k+1)` performs iterations `0..k-1`
and then iteration `k`). -/
def regConsLoop (qlen cc : Nat) :
    Nat → List Producer × List (Option Nat) × List Chan →
    List Producer × List (Option Nat) × List Chan
  | 0, s => s
  | k + 1, s =>
    let s' := regConsLoop qlen cc k s
    let id := s'.2.2.length
    (setProdEntry s'.1 k cc id, s'.2.1.set k (some id),
      s'.2.2 ++ [⟨qlen, []⟩])

/-- The wiring loop of `RegisterProducer`: for `i` from `0` to `n - 1`,
`queue = new Queue(qlen_); consumer->queue_vec_[pc] = queue;
producer->queue_vec_[i] = queue;` (same unrolling convention as
`regConsLoop`). -/
def regProdLoop (qlen pc : Nat) :
    Nat → List Consumer × List (Option Nat) × List Chan →
    List Consumer × List (Option Nat) × List Chan
  | 0, s => s
  | k + 1, s =>
    let s' := regProdLoop qlen pc k s
    let id := s'.2.2.length
    (setConsEntry s'.1 k pc id, s'.2.1.set k (some id),
      s'.2.2 ++ [⟨qlen, []⟩])

/-- `DispatchQueue::RegisterConsumer`: fails past `kMaxConsumers`, otherwise
builds a fresh `Consumer(this, consumer_count)` and wires one new queue per
existing producer slot.  The returned handle is the new slot index. -/
def registerConsumer (pmax cmax : Nat) (dq : DQ) : Option Nat × DQ :=
  let cc := dq.consumers.length
  if cc ≥ cmax then (none, dq)
  else
    let s := regConsLoop dq.qlen cc dq.producers.length
      (dq.producers, List.replicate pmax none, dq.chans)
    (some cc,
      { dq with
        producers := s.1
        consumers := dq.consumers ++ [⟨cc, neg1U, 0, s.2.1⟩]
        chans := s.2.2 })

/-- `DispatchQueue::RegisterProducer`: if the reclaim list is non-empty,
pops its back, asserts the slot holds an unregistered producer, re-activates
and returns it (note the `pop_back` happens before the assert); otherwise
fails past `kMaxProducers` or builds a fresh `Producer(this,
producer_count)` wired to every existing consumer. -/
def registerProducer (pmax cmax : Nat) (dq : DQ) :
    Except Err (Option Nat) × DQ :=
  match dq.reclaimed.getLast? with
  | some index =>
    let rest := dq.reclaimed.dropLast
    match dq.producers[index]? with
    | none => (.error .assertFailed, { dq with reclaimed := rest })
    | some p =>
      if p.is_registered then (.error .assertFailed,
        { dq with reclaimed := rest })
      else (.ok (some index),
        { dq with
          reclaimed := rest
          producers := dq.producers.set index { p with is_registered := true } })
  | none =>
    let pc := dq.producers.length
    if pc ≥ pmax then (.ok none, dq)
    else
      let s := regProdLoop dq.qlen pc dq.consumers.length
        (dq.consumers, List.replicate cmax none, dq.chans)
      (.ok (some pc),
        { dq with
          consumers := s.1
          producers := dq.producers ++ [⟨pc, true, neg1U, s.2.1⟩]
          chans := s.2.2 })

/-- An `OutQueue*` argument as seen by `UnregisterProducer`: `ptr` is the
pointer identity (for a handle of this queue, the arena slot the object
lives at) and `pidx` the value of the object's `producer_index_` field.  A
handle returned by `RegisterProducer` always has `ptr = pidx`. -/
structure ProdHandle where
  ptr : Nat
  pidx : Nat
deriving Repr, DecidableEq

/-- `DispatchQueue::UnregisterProducer`: throws `invalid_argument` when the
handle's recorded index is out of range or the pointer does not match
`producers_[index]`, `logic_error` on double unregister; otherwise clears
`is_registered_` and appends the index to `reclaimed_producers_`. -/
def unregisterProducer (pmax : Nat) (dq : DQ) (h : ProdHandle) :
    Except Err Unit × DQ :=
  if h.pidx ≥ pmax then (.error .invalidUnregister, dq)
  else
    match dq.producers[h.pidx]? with
    | none => (.error .invalidUnregister, dq)
    | some p =>
      if h.ptr ≠ h.pidx then (.error .invalidUnregister, dq)
      else if p.is_registered = false then (.error .doubleUnregister, dq)
      else (.ok (),
        { dq with
          producers := dq.producers.set h.pidx
            { p with is_registered := false }
          reclaimed := dq.reclaimed ++ [h.pidx] })

/-- `DispatchQueue(qlen)`: freshly constructed queue. -/
def DQ.init (qlen : Nat) : DQ := ⟨qlen, [], [], [], []⟩

/-- The states reachable from a freshly constructed `DispatchQueue` by any
sequence of `RegisterProducer`, `RegisterConsumer`, `UnregisterProducer`
calls. -/
inductive Reach (pmax cmax : Nat) : DQ → Prop where
  | init (qlen : Nat) : Reach pmax cmax (DQ.init qlen)
  | regP {dq : DQ} {r : Except Err (Option Nat)} {dq' : DQ} :
      Reach pmax cmax dq → registerProducer pmax cmax dq = (r, dq') →
      Reach pmax cmax dq'
  | regC {dq : DQ} {r : Option Nat} {dq' : DQ} :
      Reach pmax cmax dq → registerConsumer pmax cmax dq = (r, dq') →
      Reach pmax cmax dq'
  | unregP {dq : DQ} {h : ProdHandle} {r : Except Err Unit} {dq' : DQ} :
      Reach pmax cmax dq → unregisterProducer pmax dq h = (r, dq') →
      Reach pmax cmax dq'

/-! Section: Characterization of the registration wiring loops -/

theorem setProdEntry_length (ps : List Producer) (i c id : Nat) :
    (setProdEntry ps i c id).length = ps.length := by
  unfold setProdEntry
  cases h : ps[i]? <;> simp

theorem setProdEntry_getElem (ps : List Producer) (i c id j : Nat) :
    (setProdEntry ps i c id)[j]? =
      if j = i then
        (ps[i]?).map
          (fun p => { p with queue_vec := p.queue_vec.set c (some id) })
      else ps[j]? := by
  unfold setProdEntry
  cases h : ps[i]? with
  | none =>
    by_cases hj : j = i
    · subst hj; simp [h]
    · simp [hj]
  | some p =>
    by_cases hj : j = i
    · subst hj
      have hlt : j < ps.length := (List.getElem?_eq_some.mp h).1
      simp [List.getElem?_set_self hlt, h]
    · simp [List.getElem?_set_ne (fun he => hj he.symm), hj]

theorem setConsEntry_length (cs : List Consumer) (j pcol id : Nat) :
    (setConsEntry cs j pcol id).length = cs.length := by
  unfold setConsEntry
  cases h : cs[j]? <;> simp

theorem setConsEntry_getElem (cs : List Consumer) (j pcol id i : Nat) :
    (setConsEntry cs j pcol id)[i]? =
      if i = j then
        (cs[j]?).map
          (fun c => { c with queue_vec := c.queue_vec.set pcol (some id) })
      else cs[i]? := by
  unfold setConsEntry
  cases h : cs[j]? with
  | none =>
    by_cases hi : i = j
    · subst hi; simp [h]
    · simp [hi]
  | some c =>
    by_cases hi : i = j
    · subst hi
      have hlt : i < cs.length := (List.getElem?_eq_some.mp h).1
      simp [List.getElem?_set_self hlt, h]
    · simp [List.getElem?_set_ne (fun he => hi he.symm), hi]

theorem regConsLoop_chans (qlen cc : Nat) (n : Nat)
    (s : List Producer × List (Option Nat) × List Chan) :
    (regConsLoop qlen cc n s).2.2 = s.2.2 ++ List.replicate n ⟨qlen, []⟩ := by
  induction n with
  | zero => simp [regConsLoop]
  | succ k ih =>
    simp only [regConsLoop, ih, List.replicate_succ' k, ← List.append_assoc]

theorem regConsLoop_chans_length (qlen cc : Nat) (n : Nat)
    (s : List Producer × List (Option Nat) × List Chan) :
    (regConsLoop qlen cc n s).2.2.length = s.2.2.length + n := by
  simp [regConsLoop_chans]

theorem regConsLoop_row_length (qlen cc : Nat) (n : Nat)
    (s : List Producer × List (Option Nat) × List Chan) :
    (regConsLoop qlen cc n s).2.1.length = s.2.1.length := by
  induction n with
  | zero => rfl
  | succ k ih => simp only [regConsLoop, List.length_set, ih]

theorem regConsLoop_fst_length (qlen cc : Nat) (n : Nat)
    (s : List Producer × List (Option Nat) × List Chan) :
    (regConsLoop qlen cc n s).1.length = s.1.length := by
  induction n with
  | zero => rfl
  | succ k ih => simp only [regConsLoop, setProdEntry_length, ih]

theorem regConsLoop_row (qlen cc : Nat) (n : Nat) (ps : List Producer)
    (row : List (Option Nat)) (cs : List Chan) (hn : n ≤ row.length)
    (j : Nat) :
    (regConsLoop qlen cc n (ps, row, cs)).2.1[j]? =
      if j < n then some (some (cs.length + j)) else row[j]? := by
  induction n with
  | zero => simp [regConsLoop]
  | succ k ih =>
    have hk : k ≤ row.length := Nat.le_of_succ_le hn
    have hrl : (regConsLoop qlen cc k (ps, row, cs)).2.1.length = row.length :=
      regConsLoop_row_length qlen cc k (ps, row, cs)
    have hcl : (regConsLoop qlen cc k (ps, row, cs)).2.2.length =
        cs.length + k := regConsLoop_chans_length qlen cc k (ps, row, cs)
    simp only [regConsLoop]
    by_cases hj : j = k
    · have hlt : k < (regConsLoop qlen cc k (ps, row, cs)).2.1.length := by
        omega
      rw [hj, List.getElem?_set_self hlt, hcl]
      simp
    · rw [List.getElem?_set_ne (fun he => hj he.symm), ih hk]
      by_cases hjk : j < k
      · simp [hjk, Nat.lt_succ_of_lt hjk]
      · have : ¬ j < k + 1 := by omega
        simp [hjk, this]

theorem regConsLoop_ps (qlen cc : Nat) (n : Nat) (ps : List Producer)
    (row : List (Option Nat)) (cs : List Chan) (hn : n ≤ ps.length)
    (j : Nat) :
    (regConsLoop qlen cc n (ps, row, cs)).1[j]? =
      if j < n then
        (ps[j]?).map (fun p =>
          { p with queue_vec := p.queue_vec.set cc (some (cs.length + j)) })
      else ps[j]? := by
  induction n generalizing j with
  | zero => simp [regConsLoop]
  | succ k ih =>
    have hk : k ≤ ps.length := Nat.le_of_succ_le hn
    have hcl : (regConsLoop qlen cc k (ps, row, cs)).2.2.length =
        cs.length + k := regConsLoop_chans_length qlen cc k (ps, row, cs)
    simp only [regConsLoop, setProdEntry_getElem, hcl]
    have hkk : (regConsLoop qlen cc k (ps, row, cs)).1[k]? = ps[k]? := by
      rw [ih hk k]; simp
    by_cases hj : j = k
    · subst hj
      simp [hkk, Nat.lt_succ_self]
    · simp only [hj, if_false]
      rw [ih hk j]
      by_cases hjk : j < k
      · simp [hjk, Nat.lt_succ_of_lt hjk]
      · have : ¬ j < k + 1 := by omega
        simp [hjk, this]

theorem regProdLoop_chans (qlen pc : Nat) (n : Nat)
    (s : List Consumer × List (Option Nat) × List Chan) :
    (regProdLoop qlen pc n s).2.2 = s.2.2 ++ List.replicate n ⟨qlen, []⟩ := by
  induction n with
  | zero => simp [regProdLoop]
  | succ k ih =>
    simp only [regProdLoop, ih, List.replicate_succ' k, ← List.append_assoc]

theorem regProdLoop_chans_length (qlen pc : Nat) (n : Nat)
    (s : List Consumer × List (Option Nat) × List Chan) :
    (regProdLoop qlen pc n s).2.2.length = s.2.2.length + n := by
  simp [regProdLoop_chans]

theorem regProdLoop_row_length (qlen pc : Nat) (n : Nat)
    (s : List Consumer × List (Option Nat) × List Chan) :
    (regProdLoop qlen pc n s).2.1.length = s.2.1.length := by
  induction n with
  | zero => rfl
  | succ k ih => simp only [regProdLoop, List.length_set, ih]

theorem regProdLoop_fst_length (qlen pc : Nat) (n : Nat)
    (s : List Consumer × List (Option Nat) × List Chan) :
    (regProdLoop qlen pc n s).1.length = s.1.length := by
  induction n with
  | zero => rfl
  | succ k ih => simp only [regProdLoop, setConsEntry_length, ih]

theorem regProdLoop_row (qlen pc : Nat) (n : Nat) (cs : List Consumer)
    (row : List (Option Nat)) (ar : List Chan) (hn : n ≤ row.length)
    (j : Nat) :
    (regProdLoop qlen pc n (cs, row, ar)).2.1[j]? =
      if j < n then some (some (ar.length + j)) else row[j]? := by
  induction n with
  | zero => simp [regProdLoop]
  | succ k ih =>
    have hk : k ≤ row.length := Nat.le_of_succ_le hn
    have hrl : (regProdLoop qlen pc k (cs, row, ar)).2.1.length = row.length :=
      regProdLoop_row_length qlen pc k (cs, row, ar)
    have hcl : (regProdLoop qlen pc k (cs, row, ar)).2.2.length =
        ar.length + k := regProdLoop_chans_length qlen pc k (cs, row, ar)
    simp only [regProdLoop]
    by_cases hj : j = k
    · have hlt : k < (regProdLoop qlen pc k (cs, row, ar)).2.1.length := by
        omega
      rw [hj, List.getElem?_set_self hlt, hcl]
      simp
    · rw [List.getElem?_set_ne (fun he => hj he.symm), ih hk]
      by_cases hjk : j < k
      · simp [hjk, Nat.lt_succ_of_lt hjk]
      · have : ¬ j < k + 1 := by omega
        simp [hjk, this]

theorem regProdLoop_cs (qlen pc : Nat) (n : Nat) (cs : List Consumer)
    (row : List (Option Nat)) (ar : List Chan) (hn : n ≤ cs.length)
    (j : Nat) :
    (regProdLoop qlen pc n (cs, row, ar)).1[j]? =
      if j < n then
        (cs[j]?).map (fun c =>
          { c with queue_vec := c.queue_vec.set pc (some (ar.length + j)) })
      else cs[j]? := by
  induction n generalizing j with
  | zero => simp [regProdLoop]
  | succ k ih =>
    have hk : k ≤ cs.length := Nat.le_of_succ_le hn
    have hcl : (regProdLoop qlen pc k (cs, row, ar)).2.2.length =
        ar.length + k := regProdLoop_chans_length qlen pc k (cs, row, ar)
    simp only [regProdLoop, setConsEntry_getElem, hcl]
    have hkk : (regProdLoop qlen pc k (cs, row, ar)).1[k]? = cs[k]? := by
      rw [ih hk k]; simp
    by_cases hj : j = k
    · subst hj
      simp [hkk, Nat.lt_succ_self]
    · simp only [hj, if_false]
      rw [ih hk j]
      by_cases hjk : j < k
      · simp [hjk, Nat.lt_succ_of_lt hjk]
      · have : ¬ j < k + 1 := by omega
        simp [hjk, this]

/-! Section: The structural invariant of reachable dispatch-queue states -/

/-- The invariant maintained by registration and unregistration: slot objects
record their own index and have full-width rows; every (producer, consumer)
pair of allocated slots is linked by one queue referenced from both rows;
row entries beyond the allocated counts are null; distinct wired row entries
point to distinct queues; the reclaim list holds indices of existing,
unregistered producers, without duplicates. -/
structure Inv (pmax cmax : Nat) (dq : DQ) : Prop where
  pLen : dq.producers.length ≤ pmax
  cLen : dq.consumers.length ≤ cmax
  pRow : ∀ (i : Nat) (p : Producer), dq.producers[i]? = some p →
    p.producer_index = i ∧ p.queue_vec.length = cmax
  cRow : ∀ (j : Nat) (c : Consumer), dq.consumers[j]? = some c →
    c.consumer_index = j ∧ c.queue_vec.length = pmax
  wired : ∀ (i : Nat) (p : Producer) (j : Nat) (c : Consumer),
    dq.producers[i]? = some p → dq.consumers[j]? = some c →
    ∃ id, id < dq.chans.length ∧ p.queue_vec[j]? = some (some id) ∧
      c.queue_vec[i]? = some (some id)
  pNone : ∀ (i : Nat) (p : Producer) (j : Nat), dq.producers[i]? = some p →
    dq.consumers.length ≤ j → j < cmax → p.queue_vec[j]? = some none
  cNone : ∀ (j : Nat) (c : Consumer) (i : Nat), dq.consumers[j]? = some c →
    dq.producers.length ≤ i → i < pmax → c.queue_vec[i]? = some none
  inj : ∀ (i : Nat) (p : Producer) (j i' : Nat) (p' : Producer) (j' id : Nat),
    dq.producers[i]? = some p →
    dq.producers[i']? = some p' → p.queue_vec[j]? = some (some id) →
    p'.queue_vec[j']? = some (some id) → i = i' ∧ j = j'
  recl : ∀ k ∈ dq.reclaimed, ∃ p : Producer, dq.producers[k]? = some p ∧
    p.is_registered = false
  reclNodup : dq.reclaimed.Nodup

/-- Every non-null entry of a producer row points into the queue arena and
sits at a column below `consumer_count_`. -/
theorem Inv.entry_lt {pmax cmax : Nat} {dq : DQ} (hv : Inv pmax cmax dq)
    {i : Nat} {p : Producer} {j id : Nat} (hp : dq.producers[i]? = some p)
    (he : p.queue_vec[j]? = some (some id)) :
    id < dq.chans.length ∧ j < dq.consumers.length := by
  by_cases hj : j < dq.consumers.length
  · obtain ⟨c, hc⟩ : ∃ c, dq.consumers[j]? = some c :=
      ⟨dq.consumers[j], List.getElem?_eq_getElem hj⟩
    obtain ⟨id', hid', hpe, _⟩ := hv.wired i p j c hp hc
    rw [hpe] at he
    exact ⟨by injection he with h1; injection h1 with h2; omega, hj⟩
  · exfalso
    by_cases hcm : j < cmax
    · have := hv.pNone i p j hp (Nat.le_of_not_lt hj) hcm
      rw [this] at he
      injection he with h1
      exact Option.noConfusion h1
    · have hlen : p.queue_vec.length = cmax := (hv.pRow i p hp).2
      have : p.queue_vec[j]? = none := by
        rw [List.getElem?_eq_none_iff]
        omega
      rw [this] at he
      exact Option.noConfusion he

theorem Inv.init (pmax cmax qlen : Nat) : Inv pmax cmax (DQ.init qlen) := by
  constructor <;> simp [DQ.init]

/-- `RegisterConsumer` preserves the invariant. -/
theorem Inv.regC {pmax cmax : Nat} {dq : DQ} (hv : Inv pmax cmax dq)
    {r : Option Nat} {dq' : DQ}
    (hstep : registerConsumer pmax cmax dq = (r, dq')) :
    Inv pmax cmax dq' := by
  unfold registerConsumer at hstep
  by_cases hcc : dq.consumers.length ≥ cmax
  · simp only [hcc, if_true] at hstep
    rw [Prod.mk.injEq] at hstep
    exact hstep.2 ▸ hv
  · simp only [hcc, if_false] at hstep
    rw [Prod.mk.injEq] at hstep
    obtain ⟨-, hdq⟩ := hstep
    subst hdq
    set n := dq.producers.length with hn
    set cc := dq.consumers.length with hcc0
    have hccm : cc < cmax := Nat.lt_of_not_le hcc
    have hrowlen : (List.replicate pmax (none : Option Nat)).length = pmax :=
      List.length_replicate ..
    -- facts about the loop results
    have hps : ∀ j, (regConsLoop dq.qlen cc n
        (dq.producers, List.replicate pmax none, dq.chans)).1[j]? =
        if j < n then (dq.producers[j]?).map (fun p =>
          { p with queue_vec := p.queue_vec.set cc (some (dq.chans.length + j)) })
        else dq.producers[j]? :=
      fun j => regConsLoop_ps dq.qlen cc n dq.producers _ dq.chans
        (Nat.le_refl n) j
    have hrow : ∀ j, (regConsLoop dq.qlen cc n
        (dq.producers, List.replicate pmax none, dq.chans)).2.1[j]? =
        if j < n then some (some (dq.chans.length + j))
        else (List.replicate pmax (none : Option Nat))[j]? := by
      intro j
      exact regConsLoop_row dq.qlen cc n dq.producers _ dq.chans
        (by rw [hrowlen]; exact hv.pLen) j
    have hchans : (regConsLoop dq.qlen cc n
        (dq.producers, List.replicate pmax none, dq.chans)).2.2 =
        dq.chans ++ List.replicate n ⟨dq.qlen, []⟩ :=
      regConsLoop_chans dq.qlen cc n _
    have hchlen : (regConsLoop dq.qlen cc n
        (dq.producers, List.replicate pmax none, dq.chans)).2.2.length =
        dq.chans.length + n :=
      regConsLoop_chans_length dq.qlen cc n _
    have hpslen : (regConsLoop dq.qlen cc n
        (dq.producers, List.replicate pmax none, dq.chans)).1.length = n :=
      regConsLoop_fst_length dq.qlen cc n _
    have hrowlen' : (regConsLoop dq.qlen cc n
        (dq.producers, List.replicate pmax none, dq.chans)).2.1.length =
        pmax := by
      rw [regConsLoop_row_length, hrowlen]
    -- consumer lookups in the extended list
    have hcons : ∀ j, (dq.consumers ++
        [⟨cc, neg1U, 0, (regConsLoop dq.qlen cc n
          (dq.producers, List.replicate pmax none, dq.chans)).2.1⟩])[j]? =
        if j < cc then dq.consumers[j]?
        else if j = cc then some ⟨cc, neg1U, 0, (regConsLoop dq.qlen cc n
          (dq.producers, List.replicate pmax none, dq.chans)).2.1⟩
        else none := by
      intro j
      by_cases hj : j < cc
      · rw [List.getElem?_append_left hj, if_pos hj]
      · rw [List.getElem?_append_right (Nat.le_of_not_lt hj), if_neg hj]
        by_cases hje : j = cc
        · subst hje
          simp
        · have : 1 ≤ j - dq.consumers.length := by omega
          rw [if_neg hje, List.getElem?_eq_none_iff]
          simp only [List.length_cons, List.length_nil]
          omega
    refine ⟨?_, ?_, ?_, ?_, ?_, ?_, ?_, ?_, ?_, ?_⟩
    · simpa [hpslen] using hv.pLen
    · simp only [List.length_append, List.length_cons,
        List.length_nil]; omega
    · intro i p hp
      rw [hps i] at hp
      by_cases hi : i < n
      · rw [if_pos hi] at hp
        obtain ⟨q, hq, hqe⟩ := Option.map_eq_some'.mp hp
        obtain ⟨h1, h2⟩ := hv.pRow i q hq
        subst hqe
        exact ⟨h1, by simpa using h2⟩
      · rw [if_neg hi] at hp
        exact hv.pRow i p hp
    · intro j c hc
      rw [hcons j] at hc
      by_cases hj : j < cc
      · rw [if_pos hj] at hc
        exact hv.cRow j c hc
      · rw [if_neg hj] at hc
        by_cases hje : j = cc
        · rw [if_pos hje] at hc
          injection hc with hc
          subst hc
          exact ⟨hje.symm, hrowlen'⟩
        · rw [if_neg hje] at hc
          exact Option.noConfusion hc
    · intro i p j c hp hc
      rw [hps i] at hp
      rw [hcons j] at hc
      have hi : i < n := by
        by_contra hni
        rw [if_neg hni] at hp
        have : dq.producers[i]? = none := by
          rw [List.getElem?_eq_none_iff]; omega
        rw [this] at hp
        exact Option.noConfusion hp
      rw [if_pos hi] at hp
      obtain ⟨q, hq, hqe⟩ := Option.map_eq_some'.mp hp
      have hqlen : q.queue_vec.length = cmax := (hv.pRow i q hq).2
      by_cases hj : j < cc
      · rw [if_pos hj] at hc
        obtain ⟨id, hid, hqj, hcj⟩ := hv.wired i q j c hq hc
        refine ⟨id, ?_, ?_, hcj⟩
        · show id < (regConsLoop dq.qlen cc n
            (dq.producers, List.replicate pmax none, dq.chans)).2.2.length
          omega
        subst hqe
        simp only
        rw [List.getElem?_set_ne (by omega), hqj]
      · rw [if_neg hj] at hc
        by_cases hje : j = cc
        · rw [if_pos hje] at hc
          injection hc with hc
          refine ⟨dq.chans.length + i, ?_, ?_, ?_⟩
          · show dq.chans.length + i < (regConsLoop dq.qlen cc n
              (dq.producers, List.replicate pmax none, dq.chans)).2.2.length
            omega
          · subst hqe
            simp only
            have : cc < q.queue_vec.length := by omega
            rw [hje, List.getElem?_set_self this]
          · rw [← hc]
            simp only
            rw [hrow i, if_pos hi]
        · rw [if_neg hje] at hc
          exact Option.noConfusion hc
    · intro i p j hp hj hjm
      simp only [List.length_append, List.length_cons, List.length_nil] at hj
      rw [hps i] at hp
      by_cases hi : i < n
      · rw [if_pos hi] at hp
        obtain ⟨q, hq, hqe⟩ := Option.map_eq_some'.mp hp
        subst hqe
        simp only
        rw [List.getElem?_set_ne (by omega)]
        exact hv.pNone i q j hq (by omega) hjm
      · rw [if_neg hi] at hp
        exact hv.pNone i p j hp (by omega) hjm
    · intro j c i hc hi him
      rw [hcons j] at hc
      rw [hpslen] at hi
      by_cases hj : j < cc
      · rw [if_pos hj] at hc
        exact hv.cNone j c i hc hi him
      · rw [if_neg hj] at hc
        by_cases hje : j = cc
        · rw [if_pos hje] at hc
          injection hc with hc
          subst hc
          simp only
          rw [hrow i, if_neg (by omega), List.getElem?_replicate_of_lt him]
        · rw [if_neg hje] at hc
          exact Option.noConfusion hc
    · intro i p j i' p' j' id hp hp' hpj hpj'
      rw [hps i] at hp
      rw [hps i'] at hp'
      have hi : i < n := by
        by_contra hni
        rw [if_neg hni] at hp
        have : dq.producers[i]? = none := by
          rw [List.getElem?_eq_none_iff]; omega
        rw [this] at hp
        exact Option.noConfusion hp
      have hi' : i' < n := by
        by_contra hni
        rw [if_neg hni] at hp'
        have : dq.producers[i']? = none := by
          rw [List.getElem?_eq_none_iff]; omega
        rw [this] at hp'
        exact Option.noConfusion hp'
      rw [if_pos hi] at hp
      rw [if_pos hi'] at hp'
      obtain ⟨q, hq, hqe⟩ := Option.map_eq_some'.mp hp
      obtain ⟨q', hq', hqe'⟩ := Option.map_eq_some'.mp hp'
      have hqlen : q.queue_vec.length = cmax := (hv.pRow i q hq).2
      have hqlen' : q'.queue_vec.length = cmax := (hv.pRow i' q' hq').2
      subst hqe hqe'
      simp only at hpj hpj'
      by_cases hj : j = cc
      · subst hj
        rw [List.getElem?_set_self (by omega)] at hpj
        injection hpj with h1
        injection h1 with h1
        by_cases hj' : j' = cc
        · subst hj'
          rw [List.getElem?_set_self (by omega)] at hpj'
          injection hpj' with h2
          injection h2 with h2
          omega
        · exfalso
          rw [List.getElem?_set_ne (fun he => hj' he.symm)] at hpj'
          have := (hv.entry_lt hq' hpj').1
          omega
      · rw [List.getElem?_set_ne (fun he => hj he.symm)] at hpj
        by_cases hj' : j' = cc
        · exfalso
          subst hj'
          rw [List.getElem?_set_self (by omega)] at hpj'
          injection hpj' with h2
          injection h2 with h2
          have := (hv.entry_lt hq hpj).1
          omega
        · rw [List.getElem?_set_ne (fun he => hj' he.symm)] at hpj'
          exact hv.inj i q j i' q' j' id hq hq' hpj hpj'
    · intro k hk
      obtain ⟨p, hp, hpr⟩ := hv.recl k hk
      have hkn : k < n := (List.getElem?_eq_some.mp hp).1
      refine ⟨{ p with queue_vec :=
        p.queue_vec.set cc (some (dq.chans.length + k)) }, ?_, hpr⟩
      rw [hps k, if_pos hkn, hp]
      rfl
    · exact hv.reclNodup

/-- Replacing the reclaim list by a duplicate-free sublist of itself keeps
the invariant (the other components are untouched). -/
theorem Inv.reclSub {pmax cmax : Nat} {dq : DQ} (hv : Inv pmax cmax dq)
    (recl' : List Nat) (hsub : recl' ⊆ dq.reclaimed) (hnd : recl'.Nodup) :
    Inv pmax cmax { dq with reclaimed := recl' } := by
  refine ⟨hv.pLen, hv.cLen, hv.pRow, hv.cRow, hv.wired, hv.pNone, hv.cNone,
    hv.inj, ?_, hnd⟩
  intro k hk
  exact hv.recl k (hsub hk)

/-- Toggling the registration flag of an existing producer slot keeps every
structural field of the invariant; the caller supplies the facts about the
new reclaim list. -/
theorem Inv.setFlag {pmax cmax : Nat} {dq : DQ} (hv : Inv pmax cmax dq)
    {index : Nat} {p : Producer} (hpi : dq.producers[index]? = some p)
    (b : Bool) (recl' : List Nat)
    (hrecl : ∀ k ∈ recl', ∃ q : Producer,
      (dq.producers.set index { p with is_registered := b })[k]? = some q ∧
      q.is_registered = false)
    (hnd : recl'.Nodup) :
    Inv pmax cmax
      { dq with
        producers := dq.producers.set index { p with is_registered := b }
        reclaimed := recl' } := by
  have hidx : index < dq.producers.length := (List.getElem?_eq_some.mp hpi).1
  have hget : ∀ i, (dq.producers.set index
      { p with is_registered := b })[i]? =
      if i = index then some { p with is_registered := b }
      else dq.producers[i]? := by
    intro i
    by_cases hi : i = index
    · subst hi
      rw [if_pos rfl, List.getElem?_set_self hidx]
    · rw [if_neg hi, List.getElem?_set_ne (fun he => hi he.symm)]
  refine ⟨?_, hv.cLen, ?_, hv.cRow, ?_, ?_, ?_, ?_, hrecl, hnd⟩
  · simpa using hv.pLen
  · intro i q hq
    rw [hget i] at hq
    by_cases hi : i = index
    · rw [if_pos hi] at hq
      injection hq with hq
      subst hq
      have := hv.pRow index p hpi
      simp only
      omega
    · rw [if_neg hi] at hq
      exact hv.pRow i q hq
  · intro i q j c hq hc
    rw [hget i] at hq
    by_cases hi : i = index
    · rw [if_pos hi] at hq
      injection hq with hq
      obtain ⟨id, hid, hpj, hcj⟩ := hv.wired index p j c hpi hc
      refine ⟨id, hid, ?_, ?_⟩
      · rw [← hq]
        exact hpj
      · rw [hi]
        exact hcj
    · rw [if_neg hi] at hq
      exact hv.wired i q j c hq hc
  · intro i q j hq hj hjm
    rw [hget i] at hq
    by_cases hi : i = index
    · rw [if_pos hi] at hq
      injection hq with hq
      have := hv.pNone index p j hpi hj hjm
      rw [← hq]
      exact this
    · rw [if_neg hi] at hq
      exact hv.pNone i q j hq hj hjm
  · intro j c i hc hi him
    simp only [List.length_set] at hi
    exact hv.cNone j c i hc hi him
  · intro i q j i' q' j' id hq hq' hqj hqj'
    rw [hget i] at hq
    rw [hget i'] at hq'
    have key : ∀ (a : Nat) (w : Producer),
        (if a = index then some { p with is_registered := b }
          else dq.producers[a]?) = some w →
        ∃ w0 : Producer, dq.producers[a]? = some w0 ∧
          w0.queue_vec = w.queue_vec := by
      intro a w hw
      by_cases ha : a = index
      · rw [if_pos ha] at hw
        injection hw with hw
        exact ⟨p, ha ▸ hpi, by rw [← hw]⟩
      · rw [if_neg ha] at hw
        exact ⟨w, hw, rfl⟩
    obtain ⟨w0, hw0, hwe⟩ := key i q hq
    obtain ⟨w0', hw0', hwe'⟩ := key i' q' hq'
    exact hv.inj i w0 j i' w0' j' id hw0 hw0' (hwe ▸ hqj) (hwe' ▸ hqj')

/-- `RegisterProducer` preserves the invariant. -/
theorem Inv.regP {pmax cmax : Nat} {dq : DQ} (hv : Inv pmax cmax dq)
    {r : Except Err (Option Nat)} {dq' : DQ}
    (hstep : registerProducer pmax cmax dq = (r, dq')) :
    Inv pmax cmax dq' := by
  unfold registerProducer at hstep
  cases hgl : dq.reclaimed.getLast? with
  | some index =>
    simp only [hgl] at hstep
    have hmem : index ∈ dq.reclaimed := List.mem_of_mem_getLast? hgl
    have hnotin : index ∉ dq.reclaimed.dropLast := by
      intro hin
      have hsplit : dq.reclaimed.dropLast ++ [index] = dq.reclaimed :=
        List.dropLast_append_getLast? index hgl
      have := hv.reclNodup
      rw [← hsplit] at this
      exact (List.disjoint_of_nodup_append this) hin (by simp)
    have hndrest : dq.reclaimed.dropLast.Nodup :=
      List.Nodup.sublist (List.dropLast_sublist dq.reclaimed) hv.reclNodup
    cases hpi : dq.producers[index]? with
    | none =>
      simp only [hpi] at hstep
      rw [Prod.mk.injEq] at hstep
      obtain ⟨-, hdq⟩ := hstep
      subst hdq
      exact hv.reclSub _ (List.dropLast_subset _) hndrest
    | some p =>
      simp only [hpi] at hstep
      by_cases hreg : p.is_registered
      · simp only [hreg, if_true] at hstep
        rw [Prod.mk.injEq] at hstep
        obtain ⟨-, hdq⟩ := hstep
        subst hdq
        exact hv.reclSub _ (List.dropLast_subset _) hndrest
      · simp only [hreg, if_false] at hstep
        rw [Prod.mk.injEq] at hstep
        obtain ⟨-, hdq⟩ := hstep
        subst hdq
        refine hv.setFlag hpi true dq.reclaimed.dropLast ?_ hndrest
        intro k hk
        obtain ⟨q, hq, hqr⟩ := hv.recl k (List.dropLast_subset _ hk)
        have hkne : k ≠ index := fun he => hnotin (he ▸ hk)
        exact ⟨q, by
          rw [List.getElem?_set_ne (fun he => hkne he.symm)]
          exact hq, hqr⟩
  | none =>
    simp only [hgl] at hstep
    have hempty : dq.reclaimed = [] := List.getLast?_eq_none_iff.mp hgl
    by_cases hpc : dq.producers.length ≥ pmax
    · simp only [hpc, if_true] at hstep
      rw [Prod.mk.injEq] at hstep
      exact hstep.2 ▸ hv
    · simp only [hpc, if_false] at hstep
      rw [Prod.mk.injEq] at hstep
      obtain ⟨-, hdq⟩ := hstep
      subst hdq
      set pc := dq.producers.length with hpc0
      set m := dq.consumers.length with hm
      have hpcm : pc < pmax := Nat.lt_of_not_le hpc
      have hrowlen : (List.replicate cmax (none : Option Nat)).length = cmax :=
        List.length_replicate ..
      have hcs : ∀ j, (regProdLoop dq.qlen pc m
          (dq.consumers, List.replicate cmax none, dq.chans)).1[j]? =
          if j < m then (dq.consumers[j]?).map (fun c =>
            { c with queue_vec := c.queue_vec.set pc (some (dq.chans.length + j)) })
          else dq.consumers[j]? :=
        fun j => regProdLoop_cs dq.qlen pc m dq.consumers _ dq.chans
          (Nat.le_refl m) j
      have hrow : ∀ j, (regProdLoop dq.qlen pc m
          (dq.consumers, List.replicate cmax none, dq.chans)).2.1[j]? =
          if j < m then some (some (dq.chans.length + j))
          else (List.replicate cmax (none : Option Nat))[j]? := by
        intro j
        exact regProdLoop_row dq.qlen pc m dq.consumers _ dq.chans
          (by rw [hrowlen]; exact hv.cLen) j
      have hchlen : (regProdLoop dq.qlen pc m
          (dq.consumers, List.replicate cmax none, dq.chans)).2.2.length =
          dq.chans.length + m :=
        regProdLoop_chans_length dq.qlen pc m _
      have hcslen : (regProdLoop dq.qlen pc m
          (dq.consumers, List.replicate cmax none, dq.chans)).1.length = m :=
        regProdLoop_fst_length dq.qlen pc m _
      have hrowlen' : (regProdLoop dq.qlen pc m
          (dq.consumers, List.replicate cmax none, dq.chans)).2.1.length =
          cmax := by
        rw [regProdLoop_row_length, hrowlen]
      have hprods : ∀ i, (dq.producers ++
          [⟨pc, true, neg1U, (regProdLoop dq.qlen pc m
            (dq.consumers, List.replicate cmax none, dq.chans)).2.1⟩])[i]? =
          if i < pc then dq.producers[i]?
          else if i = pc then some ⟨pc, true, neg1U, (regProdLoop dq.qlen pc m
            (dq.consumers, List.replicate cmax none, dq.chans)).2.1⟩
          else none := by
        intro i
        by_cases hi : i < pc
        · rw [List.getElem?_append_left hi, if_pos hi]
        · rw [List.getElem?_append_right (Nat.le_of_not_lt hi), if_neg hi]
          by_cases hie : i = pc
          · subst hie
            simp
          · rw [if_neg hie, List.getElem?_eq_none_iff]
            simp only [List.length_cons, List.length_nil]
            omega
      refine ⟨?_, ?_, ?_, ?_, ?_, ?_, ?_, ?_, ?_, ?_⟩
      · simp only [List.length_append, List.length_cons, List.length_nil]
        omega
      · simpa [hcslen] using hv.cLen
      · intro i p hp
        rw [hprods i] at hp
        by_cases hi : i < pc
        · rw [if_pos hi] at hp
          exact hv.pRow i p hp
        · rw [if_neg hi] at hp
          by_cases hie : i = pc
          · rw [if_pos hie] at hp
            injection hp with hp
            subst hp
            exact ⟨hie.symm, hrowlen'⟩
          · rw [if_neg hie] at hp
            exact Option.noConfusion hp
      · intro j c hc
        rw [hcs j] at hc
        by_cases hj : j < m
        · rw [if_pos hj] at hc
          obtain ⟨c0, hc0, hce⟩ := Option.map_eq_some'.mp hc
          obtain ⟨h1, h2⟩ := hv.cRow j c0 hc0
          subst hce
          exact ⟨h1, by simpa using h2⟩
        · rw [if_neg hj] at hc
          exact hv.cRow j c hc
      · intro i p j c hp hc
        rw [hprods i] at hp
        rw [hcs j] at hc
        have hj : j < m := by
          by_contra hnj
          rw [if_neg hnj] at hc
          have : dq.consumers[j]? = none := by
            rw [List.getElem?_eq_none_iff]; omega
          rw [this] at hc
          exact Option.noConfusion hc
        rw [if_pos hj] at hc
        obtain ⟨c0, hc0, hce⟩ := Option.map_eq_some'.mp hc
        have hclen : c0.queue_vec.length = pmax := (hv.cRow j c0 hc0).2
        by_cases hi : i < pc
        · rw [if_pos hi] at hp
          obtain ⟨id, hid, hpj, hcj⟩ := hv.wired i p j c0 hp hc0
          refine ⟨id, ?_, hpj, ?_⟩
          · show id < (regProdLoop dq.qlen pc m
              (dq.consumers, List.replicate cmax none, dq.chans)).2.2.length
            omega
          · subst hce
            simp only
            rw [List.getElem?_set_ne (by omega), hcj]
        · rw [if_neg hi] at hp
          by_cases hie : i = pc
          · rw [if_pos hie] at hp
            injection hp with hp
            refine ⟨dq.chans.length + j, ?_, ?_, ?_⟩
            · show dq.chans.length + j < (regProdLoop dq.qlen pc m
                (dq.consumers, List.replicate cmax none, dq.chans)).2.2.length
              omega
            · rw [← hp]
              simp only
              rw [hrow j, if_pos hj]
            · subst hce
              simp only
              have : pc < c0.queue_vec.length := by omega
              rw [hie, List.getElem?_set_self this]
          · rw [if_neg hie] at hp
            exact Option.noConfusion hp
      · intro i p j hp hj hjm
        rw [hprods i] at hp
        rw [hcslen] at hj
        by_cases hi : i < pc
        · rw [if_pos hi] at hp
          exact hv.pNone i p j hp hj hjm
        · rw [if_neg hi] at hp
          by_cases hie : i = pc
          · rw [if_pos hie] at hp
            injection hp with hp
            subst hp
            simp only
            rw [hrow j, if_neg (by omega), List.getElem?_replicate_of_lt hjm]
          · rw [if_neg hie] at hp
            exact Option.noConfusion hp
      · intro j c i hc hi him
        simp only [List.length_append, List.length_cons, List.length_nil]
          at hi
        rw [hcs j] at hc
        by_cases hj : j < m
        · rw [if_pos hj] at hc
          obtain ⟨c0, hc0, hce⟩ := Option.map_eq_some'.mp hc
          have hclen : c0.queue_vec.length = pmax := (hv.cRow j c0 hc0).2
          subst hce
          simp only
          rw [List.getElem?_set_ne (by omega)]
          exact hv.cNone j c0 i hc0 (by omega) him
        · rw [if_neg hj] at hc
          exact hv.cNone j c i hc (by omega) him
      · intro i p j i' p' j' id hp hp' hpj hpj'
        rw [hprods i] at hp
        rw [hprods i'] at hp'
        have hrowval : ∀ (jj idv : Nat),
            (regProdLoop dq.qlen pc m
              (dq.consumers, List.replicate cmax none,
                dq.chans)).2.1[jj]? = some (some idv) →
            jj < m ∧ idv = dq.chans.length + jj := by
          intro jj idv he
          rw [hrow jj] at he
          by_cases hjj : jj < m
          · rw [if_pos hjj] at he
            injection he with h1
            injection h1 with h2
            exact ⟨hjj, h2.symm⟩
          · rw [if_neg hjj] at he
            by_cases hcm2 : jj < cmax
            · rw [List.getElem?_replicate_of_lt hcm2] at he
              injection he with h1
              exact Option.noConfusion h1
            · rw [List.getElem?_eq_none_iff.mpr
                (by rw [List.length_replicate]; omega)] at he
              exact Option.noConfusion he
        by_cases hi : i < pc
        · rw [if_pos hi] at hp
          by_cases hi' : i' < pc
          · rw [if_pos hi'] at hp'
            exact hv.inj i p j i' p' j' id hp hp' hpj hpj'
          · rw [if_neg hi'] at hp'
            by_cases hie' : i' = pc
            · exfalso
              rw [if_pos hie'] at hp'
              injection hp' with hp'
              have h1 := (hv.entry_lt hp hpj).1
              have h2 := hrowval j' id (by rw [← hp'] at hpj'; exact hpj')
              omega
            · rw [if_neg hie'] at hp'
              exact Option.noConfusion hp'
        · rw [if_neg hi] at hp
          by_cases hie : i = pc
          · rw [if_pos hie] at hp
            injection hp with hp
            have h2 := hrowval j id (by rw [← hp] at hpj; exact hpj)
            by_cases hi' : i' < pc
            · exfalso
              rw [if_pos hi'] at hp'
              have h1 := (hv.entry_lt hp' hpj').1
              omega
            · rw [if_neg hi'] at hp'
              by_cases hie' : i' = pc
              · rw [if_pos hie'] at hp'
                injection hp' with hp'
                have h3 := hrowval j' id (by rw [← hp'] at hpj'; exact hpj')
                exact ⟨hie.trans hie'.symm, by omega⟩
              · rw [if_neg hie'] at hp'
                exact Option.noConfusion hp'
          · rw [if_neg hie] at hp
            exact Option.noConfusion hp
      · intro k hk
        rw [hempty] at hk
        exact absurd hk (List.not_mem_nil k)
      · rw [hempty]
        exact List.nodup_nil

/-- `UnregisterProducer` preserves the invariant. -/
theorem Inv.unregP {pmax cmax : Nat} {dq : DQ} (hv : Inv pmax cmax dq)
    {h : ProdHandle} {r : Except Err Unit} {dq' : DQ}
    (hstep : unregisterProducer pmax dq h = (r, dq')) :
    Inv pmax cmax dq' := by
  unfold unregisterProducer at hstep
  by_cases hge : h.pidx ≥ pmax
  · simp only [hge, if_true] at hstep
    rw [Prod.mk.injEq] at hstep
    exact hstep.2 ▸ hv
  · simp only [hge, if_false] at hstep
    cases hpi : dq.producers[h.pidx]? with
    | none =>
      simp only [hpi] at hstep
      rw [Prod.mk.injEq] at hstep
      exact hstep.2 ▸ hv
    | some p =>
      simp only [hpi] at hstep
      by_cases hptr : h.ptr ≠ h.pidx
      · rw [if_pos hptr] at hstep
        rw [Prod.mk.injEq] at hstep
        exact hstep.2 ▸ hv
      · rw [if_neg hptr] at hstep
        by_cases hreg : p.is_registered = false
        · rw [if_pos hreg] at hstep
          rw [Prod.mk.injEq] at hstep
          exact hstep.2 ▸ hv
        · rw [if_neg hreg] at hstep
          rw [Prod.mk.injEq] at hstep
          obtain ⟨-, hdq⟩ := hstep
          subst hdq
          have hnotin : h.pidx ∉ dq.reclaimed := by
            intro hin
            obtain ⟨q, hq, hqr⟩ := hv.recl h.pidx hin
            rw [hpi] at hq
            injection hq with hq
            exact hreg (hq ▸ hqr)
          refine hv.setFlag hpi false (dq.reclaimed ++ [h.pidx]) ?_ ?_
          · intro k hk
            rcases List.mem_append.mp hk with hk | hk
            · obtain ⟨q, hq, hqr⟩ := hv.recl k hk
              have hkne : k ≠ h.pidx := fun he => hnotin (he ▸ hk)
              exact ⟨q, by
                rw [List.getElem?_set_ne (fun he => hkne he.symm)]
                exact hq, hqr⟩
            · have hke : k = h.pidx := by simpa using hk
              subst hke
              have hidx : h.pidx < dq.producers.length :=
                (List.getElem?_eq_some.mp hpi).1
              exact ⟨{ p with is_registered := false },
                by rw [List.getElem?_set_self hidx], rfl⟩
          · simp [List.nodup_append, hv.reclNodup, hnotin]

/-- Every reachable dispatch-queue state satisfies the invariant. -/
theorem reach_inv {pmax cmax : Nat} {dq : DQ}
    (hr : Reach pmax cmax dq) : Inv pmax cmax dq := by
  induction hr with
  | init qlen => exact Inv.init pmax cmax qlen
  | regP _ hstep ih => exact ih.regP hstep
  | regC _ hstep ih => exact ih.regC hstep
  | unregP _ hstep ih => exact ih.unregP hstep

/-! Section: Claim C1: the bipartite wiring invariant -/

/-- Queue `id` links producer slot `i` and consumer slot `j`: both the
producer's row (at column `j`) and the consumer's row (at column `i`)
reference it. -/
def Links (dq : DQ) (i j id : Nat) : Prop :=
  (∃ p : Producer, dq.producers[i]? = some p ∧
    p.queue_vec[j]? = some (some id)) ∧
  (∃ c : Consumer, dq.consumers[j]? = some c ∧
    c.queue_vec[i]? = some (some id))

/-- Claim C1: in every reachable state of the dispatch queue, every pair of a
producer slot `i < producer_count_` and a consumer slot
`j < consumer_count_` is linked by exactly one queue, referenced from both
rows; consequently a producer row is wired exactly at columns
`< consumer_count_` (contiguously from 0) and a consumer row exactly at
columns `< producer_count_`. -/
theorem c1_matrix_wiring {pmax cmax : Nat} {dq : DQ}
    (hr : Reach pmax cmax dq) :
    (∀ i j, i < dq.producers.length → j < dq.consumers.length →
      ∃! id, Links dq i j id) ∧
    (∀ (i : Nat) (p : Producer), dq.producers[i]? = some p → ∀ j < cmax,
      ((∃ id, p.queue_vec[j]? = some (some id)) ↔
        j < dq.consumers.length)) ∧
    (∀ (j : Nat) (c : Consumer), dq.consumers[j]? = some c → ∀ i < pmax,
      ((∃ id, c.queue_vec[i]? = some (some id)) ↔
        i < dq.producers.length)) := by
  have hv := reach_inv hr
  refine ⟨?_, ?_, ?_⟩
  · intro i j hi hj
    obtain ⟨p, hp⟩ : ∃ p, dq.producers[i]? = some p :=
      ⟨dq.producers[i], List.getElem?_eq_getElem hi⟩
    obtain ⟨c, hc⟩ : ∃ c, dq.consumers[j]? = some c :=
      ⟨dq.consumers[j], List.getElem?_eq_getElem hj⟩
    obtain ⟨id, hid, hpj, hcj⟩ := hv.wired i p j c hp hc
    refine ⟨id, ⟨⟨p, hp, hpj⟩, ⟨c, hc, hcj⟩⟩, ?_⟩
    rintro id' ⟨⟨p', hp', hpj'⟩, -⟩
    rw [hp] at hp'
    injection hp' with hp'
    subst hp'
    rw [hpj] at hpj'
    injection hpj' with h1
    injection h1 with h2
    exact h2.symm
  · intro i p hp j hjm
    constructor
    · rintro ⟨id, hid⟩
      exact (hv.entry_lt hp hid).2
    · intro hj
      obtain ⟨c, hc⟩ : ∃ c, dq.consumers[j]? = some c :=
        ⟨dq.consumers[j], List.getElem?_eq_getElem hj⟩
      obtain ⟨id, -, hpj, -⟩ := hv.wired i p j c hp hc
      exact ⟨id, hpj⟩
  · intro j c hc i him
    constructor
    · rintro ⟨id, hid⟩
      by_contra hni
      have := hv.cNone j c i hc (Nat.le_of_not_lt hni) him
      rw [this] at hid
      injection hid with h1
      exact Option.noConfusion h1
    · intro hi
      obtain ⟨p, hp⟩ : ∃ p, dq.producers[i]? = some p :=
        ⟨dq.producers[i], List.getElem?_eq_getElem hi⟩
      obtain ⟨id, -, -, hcj⟩ := hv.wired i p j c hp hc
      exact ⟨id, hcj⟩

/-- A small concrete run used by witnesses: capacity-1 queues, limits
`kMaxProducers = kMaxConsumers = 2`; one producer then one consumer
registered. -/
def dqEx2 : DQ := (registerConsumer 2 2 (registerProducer 2 2 (DQ.init 1)).2).2

theorem reach_dqEx2 : Reach 2 2 dqEx2 :=
  Reach.regC (Reach.regP (Reach.init 1) rfl) rfl

/-- Witness for C1 at the concrete state `dqEx2`. -/
theorem c1_matrix_wiring_witness :
    Reach 2 2 dqEx2 ∧ 0 < dqEx2.producers.length ∧
      0 < dqEx2.consumers.length ∧ ∃! id, Links dqEx2 0 0 id :=
  ⟨reach_dqEx2, by decide, by decide,
    (c1_matrix_wiring reach_dqEx2).1 0 0 (by decide) (by decide)⟩

/-! Section: Claims C5, C6, C10: registration and reclaim behaviour -/

/-- Claim C5: calling `RegisterProducer` on a reachable state with a non-empty
reclaim list pops the last free-list index, re-activates the existing
producer object of that slot and returns it; no queue is created or
modified, no row entry of any handle changes, and both counters are
unchanged. -/
theorem c5_reclaim_frame {pmax cmax : Nat} {dq : DQ}
    (hr : Reach pmax cmax dq) (hne : dq.reclaimed ≠ []) :
    ∃ (idx : Nat) (p : Producer),
      dq.reclaimed.getLast? = some idx ∧
      dq.producers[idx]? = some p ∧ p.is_registered = false ∧
      registerProducer pmax cmax dq =
        (.ok (some idx),
          { dq with
            reclaimed := dq.reclaimed.dropLast
            producers := dq.producers.set idx
              { p with is_registered := true } }) ∧
      (registerProducer pmax cmax dq).2.chans = dq.chans ∧
      (registerProducer pmax cmax dq).2.consumers = dq.consumers ∧
      (registerProducer pmax cmax dq).2.producers.length =
        dq.producers.length ∧
      (∀ (i : Nat) (q : Producer), dq.producers[i]? = some q →
        ∃ q' : Producer, (registerProducer pmax cmax dq).2.producers[i]? =
          some q' ∧ q'.queue_vec = q.queue_vec ∧
          q'.cur_index = q.cur_index ∧ q'.producer_index = q.producer_index) := by
  have hv := reach_inv hr
  obtain ⟨idx, hgl⟩ : ∃ idx, dq.reclaimed.getLast? = some idx := by
    cases hg : dq.reclaimed.getLast? with
    | none => exact absurd (List.getLast?_eq_none_iff.mp hg) hne
    | some a => exact ⟨a, rfl⟩
  obtain ⟨p, hp, hpr⟩ := hv.recl idx (List.mem_of_mem_getLast? hgl)
  have hmain : registerProducer pmax cmax dq =
      (.ok (some idx),
        { dq with
          reclaimed := dq.reclaimed.dropLast
          producers := dq.producers.set idx
            { p with is_registered := true } }) := by
    simp only [registerProducer, hgl, hp, hpr, Bool.false_eq_true,
      if_false]
  have hidx : idx < dq.producers.length := (List.getElem?_eq_some.mp hp).1
  refine ⟨idx, p, hgl, hp, hpr, hmain, by rw [hmain], by rw [hmain],
    by rw [hmain]; exact List.length_set .., ?_⟩
  intro i q hq
  rw [hmain]
  by_cases hi : i = idx
  · subst hi
    rw [hp] at hq
    injection hq with hq
    subst hq
    exact ⟨{ p with is_registered := true },
      by show (dq.producers.set i _)[i]? = _
         rw [List.getElem?_set_self hidx], rfl, rfl, rfl⟩
  · exact ⟨q,
      by show (dq.producers.set idx _)[i]? = _
         rw [List.getElem?_set_ne (fun he => hi he.symm)]
         exact hq, rfl, rfl, rfl⟩

/-- Witness for C5: unregister the producer of `dqEx2`, then observe the
reclaim branch of `RegisterProducer`. -/
theorem c5_reclaim_frame_witness :
    (unregisterProducer 2 dqEx2 ⟨0, 0⟩).2.reclaimed ≠ [] ∧
    ∃ (idx : Nat) (p : Producer),
      (unregisterProducer 2 dqEx2 ⟨0, 0⟩).2.reclaimed.getLast? = some idx ∧
      (unregisterProducer 2 dqEx2 ⟨0, 0⟩).2.producers[idx]? = some p ∧
      p.is_registered = false ∧
      registerProducer 2 2 (unregisterProducer 2 dqEx2 ⟨0, 0⟩).2 =
        (.ok (some idx),
          { (unregisterProducer 2 dqEx2 ⟨0, 0⟩).2 with
            reclaimed :=
              (unregisterProducer 2 dqEx2 ⟨0, 0⟩).2.reclaimed.dropLast
            producers := (unregisterProducer 2 dqEx2 ⟨0, 0⟩).2.producers.set
              idx { p with is_registered := true } }) ∧
      (registerProducer 2 2 (unregisterProducer 2 dqEx2 ⟨0, 0⟩).2).2.chans =
        (unregisterProducer 2 dqEx2 ⟨0, 0⟩).2.chans ∧
      (registerProducer 2 2
        (unregisterProducer 2 dqEx2 ⟨0, 0⟩).2).2.consumers =
        (unregisterProducer 2 dqEx2 ⟨0, 0⟩).2.consumers ∧
      (registerProducer 2 2
        (unregisterProducer 2 dqEx2 ⟨0, 0⟩).2).2.producers.length =
        (unregisterProducer 2 dqEx2 ⟨0, 0⟩).2.producers.length ∧
      (∀ (i : Nat) (q : Producer),
        (unregisterProducer 2 dqEx2 ⟨0, 0⟩).2.producers[i]? = some q →
        ∃ q' : Producer, (registerProducer 2 2
          (unregisterProducer 2 dqEx2 ⟨0, 0⟩).2).2.producers[i]? =
          some q' ∧ q'.queue_vec = q.queue_vec ∧
          q'.cur_index = q.cur_index ∧
          q'.producer_index = q.producer_index) :=
  ⟨by decide,
    c5_reclaim_frame
      (@Reach.unregP 2 2 dqEx2 ⟨0, 0⟩ (unregisterProducer 2 dqEx2 ⟨0, 0⟩).1
        (unregisterProducer 2 dqEx2 ⟨0, 0⟩).2 reach_dqEx2 rfl)
      (by decide)⟩

/-- Claim C6: `RegisterConsumer` reports "no slot" exactly at the consumer
ceiling, `RegisterProducer` with an empty reclaim list exactly at the
producer ceiling, and both failures leave the state unchanged (and raise no
error). -/
theorem c6_saturation {pmax cmax : Nat} {dq : DQ}
    (hr : Reach pmax cmax dq) :
    ((registerConsumer pmax cmax dq).1 = none ↔
      dq.consumers.length = cmax) ∧
    ((registerConsumer pmax cmax dq).1 = none →
      (registerConsumer pmax cmax dq).2 = dq) ∧
    (dq.reclaimed = [] →
      (((registerProducer pmax cmax dq).1 = .ok none ↔
        dq.producers.length = pmax) ∧
      ((registerProducer pmax cmax dq).1 = .ok none →
        (registerProducer pmax cmax dq).2 = dq) ∧
      (∀ e, (registerProducer pmax cmax dq).1 ≠ .error e))) := by
  have hv := reach_inv hr
  have hc : ∀ (o : Option Nat) (dq2 : DQ),
      registerConsumer pmax cmax dq = (o, dq2) →
      (o = none ↔ dq.consumers.length = cmax) ∧ (o = none → dq2 = dq) := by
    intro o dq2 hstep
    unfold registerConsumer at hstep
    by_cases hcc : dq.consumers.length ≥ cmax
    · rw [if_pos hcc, Prod.mk.injEq] at hstep
      obtain ⟨h1, h2⟩ := hstep
      subst h1
      subst h2
      exact ⟨⟨fun _ => Nat.le_antisymm hv.cLen hcc, fun _ => rfl⟩,
        fun _ => rfl⟩
    · rw [if_neg hcc, Prod.mk.injEq] at hstep
      obtain ⟨h1, -⟩ := hstep
      subst h1
      exact ⟨⟨fun h => Option.noConfusion h, fun h => absurd h.ge hcc⟩,
        fun h => Option.noConfusion h⟩
  refine ⟨(hc _ _ rfl).1, (hc _ _ rfl).2, ?_⟩
  intro hempty
  have hgl : dq.reclaimed.getLast? = none :=
    List.getLast?_eq_none_iff.mpr hempty
  unfold registerProducer
  rw [hgl]
  by_cases hpc : dq.producers.length ≥ pmax
  · rw [if_pos hpc]
    exact ⟨⟨fun _ => Nat.le_antisymm hv.pLen hpc, fun _ => rfl⟩,
      fun _ => rfl, fun e he => Except.noConfusion he⟩
  · rw [if_neg hpc]
    refine ⟨⟨fun h => ?_, fun h => absurd h.ge hpc⟩, fun h => ?_,
      fun e he => Except.noConfusion he⟩
    · injection h with h
      exact Option.noConfusion h
    · injection h with h
      exact Option.noConfusion h

/-- Witness for C6: a saturated 1×1 queue refuses further registrations
without changing state. -/
theorem c6_saturation_witness :
    Reach 1 1 (registerConsumer 1 1 (registerProducer 1 1
      (DQ.init 1)).2).2 ∧
    ((registerConsumer 1 1 (registerConsumer 1 1 (registerProducer 1 1
      (DQ.init 1)).2).2).1 = none ↔
      (registerConsumer 1 1 (registerProducer 1 1
        (DQ.init 1)).2).2.consumers.length = 1) :=
  ⟨Reach.regC (Reach.regP (Reach.init 1) rfl) rfl,
    (c6_saturation (Reach.regC (Reach.regP (Reach.init 1) rfl) rfl)).1⟩

/-- Claim C10: the reclaim free-list is used LIFO — `UnregisterProducer`
appends the slot index at the back, and the reclaim branch of
`RegisterProducer` takes the index from the back. -/
theorem c10_reclaim_lifo (pmax cmax : Nat) (dq : DQ) :
    (∀ (h : ProdHandle) (p : Producer), h.pidx < pmax → h.ptr = h.pidx →
      dq.producers[h.pidx]? = some p → p.is_registered = true →
      (unregisterProducer pmax dq h).2.reclaimed =
        dq.reclaimed ++ [h.pidx]) ∧
    (∀ (idx : Nat) (p : Producer), dq.reclaimed.getLast? = some idx →
      dq.producers[idx]? = some p → p.is_registered = false →
      (registerProducer pmax cmax dq).1 = .ok (some idx) ∧
      (registerProducer pmax cmax dq).2.reclaimed =
        dq.reclaimed.dropLast) := by
  constructor
  · intro h p hlt hptr hp hreg
    simp only [unregisterProducer, if_neg (Nat.not_le_of_lt hlt), hp,
      if_neg (show ¬ h.ptr ≠ h.pidx by simpa using hptr),
      if_neg (show ¬ p.is_registered = false by simp [hreg])]
  · intro idx p hgl hp hreg
    simp only [registerProducer, hgl, hp, hreg, Bool.false_eq_true,
      if_false]
    exact ⟨trivial, trivial⟩

/-- Witness for C10: unregistering producer 0 of `dqEx2` appends 0 to the
free-list; re-registering pops it back. -/
theorem c10_reclaim_lifo_witness :
    (unregisterProducer 2 dqEx2 ⟨0, 0⟩).2.reclaimed =
      dqEx2.reclaimed ++ [0] ∧
    (registerProducer 2 2 (unregisterProducer 2 dqEx2 ⟨0, 0⟩).2).1 =
      .ok (some 0) ∧
    (registerProducer 2 2 (unregisterProducer 2 dqEx2 ⟨0, 0⟩).2).2.reclaimed
      = (unregisterProducer 2 dqEx2 ⟨0, 0⟩).2.reclaimed.dropLast :=
  ⟨(c10_reclaim_lifo 2 2 dqEx2).1 ⟨0, 0⟩
      ⟨0, true, neg1U, [some 0, none]⟩ (by decide) rfl (by decide) rfl,
    (c10_reclaim_lifo 2 2 (unregisterProducer 2 dqEx2 ⟨0, 0⟩).2).2 0
      ⟨0, false, neg1U, [some 0, none]⟩ (by decide) (by decide) rfl⟩

/-! Section: Claim C7: usage errors -/

theorem pushLoop1_err_kind {row : List (Option Nat)} {v : Nat}
    {chans : List Chan} :
    ∀ {fuel i : Nat} {e : Err} {m : Nat},
    pushLoop1 row v chans fuel i = .err e m →
    e = .oobRead ∨ e = .nullDeref := by
  intro fuel
  induction fuel with
  | zero =>
    intro i e m h
    exact ScanRes.noConfusion h
  | succ f ih =>
    intro i e m h
    unfold pushLoop1 at h
    split at h
    · injection h with h1 _
      exact .inl h1.symm
    · exact ScanRes.noConfusion h
    · split at h
      · injection h with h1 _
        exact .inr h1.symm
      · dsimp only at h
        split at h
        · exact ScanRes.noConfusion h
        · exact ih h

theorem pushLoop2_err_kind {row : List (Option Nat)} {v : Nat}
    {chans : List Chan} :
    ∀ {fuel i : Nat} {e : Err} {m : Nat},
    pushLoop2 row v chans fuel i = .err e m →
    e = .oobRead ∨ e = .nullDeref := by
  intro fuel
  induction fuel with
  | zero =>
    intro i e m h
    exact ScanRes.noConfusion h
  | succ f ih =>
    intro i e m h
    unfold pushLoop2 at h
    split at h
    · injection h with h1 _
      exact .inl h1.symm
    · exact ScanRes.noConfusion h
    · split at h
      · injection h with h1 _
        exact .inr h1.symm
      · dsimp only at h
        split at h
        · exact ScanRes.noConfusion h
        · exact ih h

/-- Claim C7: each push overload throws exactly when its handle is
unregistered (and then changes nothing); `UnregisterProducer` throws
`invalid_argument` exactly on an out-of-range or mismatched handle,
`logic_error` exactly on a double unregister, and every failing unregister
leaves the whole state (free-list, flags, queues) unchanged. -/
theorem c7_usage_errors (pmax cmax : Nat) :
    (∀ (p : Producer) (chans : List Chan) (v : Nat),
      ((Producer.push cmax p chans v).res = .error .pushUnregistered ↔
        p.is_registered = false) ∧
      (p.is_registered = false →
        Producer.push cmax p chans v = ⟨.error .pushUnregistered, p, chans⟩))
    ∧
    (∀ (p : Producer) (chans : List Chan) (idx v : Nat),
      ((Producer.pushIdx cmax p chans idx v).res =
          .error .pushUnregistered ↔ p.is_registered = false) ∧
      (p.is_registered = false →
        Producer.pushIdx cmax p chans idx v =
          ⟨.error .pushUnregistered, p, chans⟩)) ∧
    (∀ (dq : DQ) (h : ProdHandle),
      ((unregisterProducer pmax dq h).1 = .error .invalidUnregister ↔
        (pmax ≤ h.pidx ∨ dq.producers[h.pidx]? = none ∨ h.ptr ≠ h.pidx)) ∧
      ((unregisterProducer pmax dq h).1 = .error .doubleUnregister ↔
        (h.pidx < pmax ∧ h.ptr = h.pidx ∧
          ∃ p : Producer, dq.producers[h.pidx]? = some p ∧
            p.is_registered = false)) ∧
      (∀ e : Err, (unregisterProducer pmax dq h).1 = .error e →
        (unregisterProducer pmax dq h).2 = dq)) := by
  refine ⟨?_, ?_, ?_⟩
  · intro p chans v
    by_cases hreg : p.is_registered = false
    · constructor
      · rw [Producer.push, if_pos hreg]
        exact ⟨fun _ => hreg, fun _ => rfl⟩
      · intro _
        rw [Producer.push, if_pos hreg]
    · refine ⟨⟨fun hres => ?_, fun hr => absurd hr hreg⟩,
        fun hr => absurd hr hreg⟩
      exfalso
      rw [Producer.push, if_neg hreg] at hres
      cases h1 : pushLoop1 p.queue_vec v chans (cmax - (p.cur_index + 1))
          (p.cur_index + 1) with
      | ok a b => rw [h1] at hres; exact Except.noConfusion hres
      | err e m =>
        rw [h1] at hres
        injection hres with hres
        subst hres
        rcases pushLoop1_err_kind h1 with h | h <;>
          exact Err.noConfusion h
      | fail m =>
        rw [h1] at hres
        cases h2 : pushLoop2 p.queue_vec v chans (p.cur_index + 1) 0 with
        | ok a b => rw [h2] at hres; exact Except.noConfusion hres
        | err e m' =>
          rw [h2] at hres
          injection hres with hres
          subst hres
          rcases pushLoop2_err_kind h2 with h | h <;>
            exact Err.noConfusion h
        | fail m' => rw [h2] at hres; exact Except.noConfusion hres
  · intro p chans idx v
    by_cases hreg : p.is_registered = false
    · constructor
      · rw [Producer.pushIdx, if_pos hreg]
        exact ⟨fun _ => hreg, fun _ => rfl⟩
      · intro _
        rw [Producer.pushIdx, if_pos hreg]
    · refine ⟨⟨fun hres => ?_, fun hr => absurd hr hreg⟩,
        fun hr => absurd hr hreg⟩
      exfalso
      rw [Producer.pushIdx, if_neg hreg] at hres
      by_cases hidx : idx < cmax
      · rw [if_pos hidx] at hres
        split at hres
        · injection hres with hres
          exact Err.noConfusion hres
        · exact Except.noConfusion hres
        · split at hres
          · injection hres with hres
            exact Err.noConfusion hres
          · dsimp only at hres
            split at hres
            · exact Except.noConfusion hres
            · exact Except.noConfusion hres
      · rw [if_neg hidx] at hres
        exact Except.noConfusion hres
  · intro dq h
    by_cases hge : h.pidx ≥ pmax
    · have heq : unregisterProducer pmax dq h =
          (.error .invalidUnregister, dq) := by
        rw [unregisterProducer, if_pos hge]
      rw [heq]
      refine ⟨⟨fun _ => .inl hge, fun _ => rfl⟩,
        ⟨fun hres => ?_, fun ⟨hlt, _, _⟩ => absurd hge (by omega)⟩,
        fun e _ => rfl⟩
      injection hres with hres
      exact Err.noConfusion hres
    · cases hpi : dq.producers[h.pidx]? with
      | none =>
        have heq : unregisterProducer pmax dq h =
            (.error .invalidUnregister, dq) := by
          rw [unregisterProducer, if_neg hge, hpi]
        rw [heq]
        refine ⟨⟨fun _ => .inr (.inl rfl), fun _ => rfl⟩,
          ⟨fun hres => ?_, fun ⟨_, _, p, hp, _⟩ => Option.noConfusion hp⟩,
          fun e _ => rfl⟩
        injection hres with hres
        exact Err.noConfusion hres
      | some p =>
        by_cases hptr : h.ptr ≠ h.pidx
        · have heq : unregisterProducer pmax dq h =
              (.error .invalidUnregister, dq) := by
            rw [unregisterProducer, if_neg hge, hpi]
            dsimp only
            rw [if_pos hptr]
          rw [heq]
          refine ⟨⟨fun _ => .inr (.inr hptr), fun _ => rfl⟩,
            ⟨fun hres => ?_, fun ⟨_, he, _⟩ => absurd he hptr⟩,
            fun e _ => rfl⟩
          injection hres with hres
          exact Err.noConfusion hres
        · by_cases hreg : p.is_registered = false
          · have heq : unregisterProducer pmax dq h =
                (.error .doubleUnregister, dq) := by
              rw [unregisterProducer, if_neg hge, hpi]
              dsimp only
              rw [if_neg hptr, if_pos hreg]
            rw [heq]
            refine ⟨⟨fun hres => ?_, fun hd => ?_⟩,
              ⟨fun _ => ⟨by omega, by simpa using hptr, p, rfl, hreg⟩,
                fun _ => rfl⟩, fun e _ => rfl⟩
            · injection hres with hres
              exact Err.noConfusion hres
            · rcases hd with hd | hd | hd
              · omega
              · exact Option.noConfusion hd
              · exact absurd hd hptr
          · have heq1 : (unregisterProducer pmax dq h).1 = .ok () := by
              rw [unregisterProducer, if_neg hge, hpi]
              dsimp only
              rw [if_neg hptr, if_neg hreg]
            refine ⟨⟨fun hres => ?_, fun hd => ?_⟩,
              ⟨fun hres => ?_, fun ⟨_, _, q, hq, hqreg⟩ => ?_⟩,
              fun e hres => ?_⟩
            · rw [heq1] at hres
              exact Except.noConfusion hres
            · rcases hd with hd | hd | hd
              · omega
              · exact Option.noConfusion hd
              · exact absurd hd hptr
            · rw [heq1] at hres
              exact Except.noConfusion hres
            · injection hq with hq
              rw [← hq] at hqreg
              exact absurd hqreg hreg
            · rw [heq1] at hres
              exact Except.noConfusion hres

/-- Witness for C7 at concrete inputs. -/
theorem c7_usage_errors_witness :
    Producer.push 2 ⟨0, false, neg1U, [some 0, none]⟩ [⟨1, []⟩] 5 =
      ⟨.error .pushUnregistered, ⟨0, false, neg1U, [some 0, none]⟩,
        [⟨1, []⟩]⟩ ∧
    (unregisterProducer 2 dqEx2 ⟨0, 1⟩).1 = .error .invalidUnregister ∧
    (unregisterProducer 2
      (unregisterProducer 2 dqEx2 ⟨0, 0⟩).2 ⟨0, 0⟩).1 =
      .error .doubleUnregister :=
  ⟨((c7_usage_errors 2 2).1 ⟨0, false, neg1U, [some 0, none]⟩
      [⟨1, []⟩] 5).2 rfl,
    (((c7_usage_errors 2 2).2.2 dqEx2 ⟨0, 1⟩).1).mpr (by decide),
    (((c7_usage_errors 2 2).2.2
      (unregisterProducer 2 dqEx2 ⟨0, 0⟩).2 ⟨0, 0⟩).2.1).mpr
      (by decide)⟩

/-! Section: Claim C9: directed push -/

/-- Consumer-side analogue of `Inv.entry_lt`: a wired consumer-row entry is
exactly the queue wired into the corresponding producer row. -/
theorem Inv.centry {pmax cmax : Nat} {dq : DQ} (hv : Inv pmax cmax dq)
    {j : Nat} {co : Consumer} {k id : Nat}
    (hc : dq.consumers[j]? = some co)
    (he : co.queue_vec[k]? = some (some id)) :
    ∃ q : Producer, dq.producers[k]? = some q ∧
      q.queue_vec[j]? = some (some id) := by
  by_cases hk : k < dq.producers.length
  · obtain ⟨q, hq⟩ : ∃ q, dq.producers[k]? = some q :=
      ⟨dq.producers[k], List.getElem?_eq_getElem hk⟩
    obtain ⟨id', hid', hpj, hcj⟩ := hv.wired k q j co hq hc
    rw [hcj] at he
    injection he with h1
    injection h1 with h2
    exact ⟨q, hq, h2 ▸ hpj⟩
  · exfalso
    by_cases hpm : k < pmax
    · have := hv.cNone j co k hc (Nat.le_of_not_lt hk) hpm
      rw [this] at he
      injection he with h1
      exact Option.noConfusion h1
    · have hlen : co.queue_vec.length = pmax := (hv.cRow j co hc).2
      have : co.queue_vec[k]? = none := by
        rw [List.getElem?_eq_none_iff]
        omega
      rw [this] at he
      exact Option.noConfusion he

/-- Claim C9: on a reachable state, a directed push through an active handle
to a wired consumer index attempts exactly one non-blocking push, on the one
queue linking the pair, returning that push's result; out-of-range or
unwired indices yield `false`; the handle (in particular its round-robin
cursor) is returned unchanged and no other queue in the arena changes; the
target queue is the one consumer `c` reads at the producer's column, and no
other consumer's row references it. -/
theorem c9_directed_push {pmax cmax : Nat} {dq : DQ}
    (hr : Reach pmax cmax dq) (i : Nat) (p : Producer)
    (hp : dq.producers[i]? = some p) (hreg : p.is_registered = true)
    (c v : Nat) :
    (dq.consumers.length ≤ c →
      Producer.pushIdx cmax p dq.chans c v = ⟨.ok false, p, dq.chans⟩) ∧
    (c < dq.consumers.length →
      ∃ (id : Nat) (ch : Chan) (co : Consumer),
        p.queue_vec[c]? = some (some id) ∧ dq.chans[id]? = some ch ∧
        Producer.pushIdx cmax p dq.chans c v =
          ⟨.ok (decide (ch.buf.length < ch.cap)), p,
            if ch.buf.length < ch.cap then
              dq.chans.set id ⟨ch.cap, ch.buf ++ [v]⟩
            else dq.chans⟩ ∧
        dq.consumers[c]? = some co ∧ co.queue_vec[i]? = some (some id) ∧
        (∀ (j : Nat) (co' : Consumer), dq.consumers[j]? = some co' →
          j ≠ c → ∀ k : Nat, co'.queue_vec[k]? ≠ some (some id))) := by
  have hv := reach_inv hr
  have hnreg : ¬ p.is_registered = false := by simp [hreg]
  constructor
  · intro hc
    rw [Producer.pushIdx, if_neg hnreg]
    by_cases hcm : c < cmax
    · rw [if_pos hcm]
      have hnone := hv.pNone i p c hp hc hcm
      rw [hnone]
    · rw [if_neg hcm]
  · intro hc
    obtain ⟨co, hco⟩ : ∃ co, dq.consumers[c]? = some co :=
      ⟨dq.consumers[c], List.getElem?_eq_getElem hc⟩
    obtain ⟨id, hid, hpj, hcj⟩ := hv.wired i p c co hp hco
    obtain ⟨ch, hch⟩ : ∃ ch, dq.chans[id]? = some ch :=
      ⟨dq.chans[id], List.getElem?_eq_getElem hid⟩
    have hcm : c < cmax := Nat.lt_of_lt_of_le hc hv.cLen
    refine ⟨id, ch, co, hpj, hch, ?_, hco, hcj, ?_⟩
    · rw [Producer.pushIdx, if_neg hnreg, if_pos hcm, hpj]
      dsimp only
      rw [hch]
      dsimp only
      rw [Chan.push]
      by_cases hacc : ch.buf.length < ch.cap
      · simp [hacc]
      · simp [hacc]
    · intro j co' hco' hne k hk
      obtain ⟨q, hq, hqj⟩ := hv.centry hco' hk
      obtain ⟨hik, hcj'⟩ := hv.inj i p c k q j id hp hq hpj hqj
      exact hne hcj'.symm

/-- Witness for C9: directed push to consumer 0 of `dqEx2`. -/
theorem c9_directed_push_witness :
    Reach 2 2 dqEx2 ∧ dqEx2.producers[0]? =
      some ⟨0, true, neg1U, [some 0, none]⟩ ∧
    (1 ≤ 1 →
      Producer.pushIdx 2 ⟨0, true, neg1U, [some 0, none]⟩ dqEx2.chans 1 9 =
        ⟨.ok false, ⟨0, true, neg1U, [some 0, none]⟩, dqEx2.chans⟩) ∧
    (0 < 1 →
      ∃ (id : Nat) (ch : Chan) (co : Consumer),
        (⟨0, true, neg1U, [some 0, none]⟩ :
          Producer).queue_vec[0]? = some (some id) ∧
        dqEx2.chans[id]? = some ch ∧
        Producer.pushIdx 2 ⟨0, true, neg1U, [some 0, none]⟩ dqEx2.chans 0 9 =
          ⟨.ok (decide (ch.buf.length < ch.cap)),
            ⟨0, true, neg1U, [some 0, none]⟩,
            if ch.buf.length < ch.cap then
              dqEx2.chans.set id ⟨ch.cap, ch.buf ++ [9]⟩
            else dqEx2.chans⟩ ∧
        dqEx2.consumers[0]? = some co ∧ co.queue_vec[0]? = some (some id) ∧
        (∀ (j : Nat) (co' : Consumer), dqEx2.consumers[j]? = some co' →
          j ≠ 0 → ∀ k : Nat, co'.queue_vec[k]? ≠ some (some id))) := by
  have h := c9_directed_push reach_dqEx2 0 ⟨0, true, neg1U, [some 0, none]⟩
    (by decide) rfl 1 9
  have h0 := c9_directed_push reach_dqEx2 0 ⟨0, true, neg1U, [some 0, none]⟩
    (by decide) rfl 0 9
  exact ⟨reach_dqEx2, by decide,
    fun _ => h.1 (by decide), fun _ => h0.2 (by decide)⟩

/-! Section: Claim C4: two-tier sticky pop -/

/-- The round-robin scan sets the sticky counter to 1 on success and leaves
it untouched (the caller has already reset it to 0) on failure or error. -/
theorem popScan_res_cnt (pmax : Nat) (c : Consumer) (chans : List Chan) :
    ((∃ v, (Consumer.popScan pmax c chans).res = .ok (some v)) →
      (Consumer.popScan pmax c chans).cons.cur_index_read_cnt = 1) ∧
    (¬ (∃ v, (Consumer.popScan pmax c chans).res = .ok (some v)) →
      (Consumer.popScan pmax c chans).cons.cur_index_read_cnt =
        c.cur_index_read_cnt) := by
  unfold Consumer.popScan
  split
  · exact ⟨fun _ => rfl, fun hn => absurd ⟨_, rfl⟩ hn⟩
  · exact ⟨fun ⟨v, hv⟩ => Except.noConfusion hv, fun _ => rfl⟩
  · split
    · exact ⟨fun _ => rfl, fun hn => absurd ⟨_, rfl⟩ hn⟩
    · exact ⟨fun ⟨v, hv⟩ => Except.noConfusion hv, fun _ => rfl⟩
    · refine ⟨fun ⟨v, hv⟩ => ?_, fun _ => rfl⟩
      injection hv with hv
      exact Option.noConfusion hv

/-- Claim C4: `Pop` retries the previous successful index before any scanning
exactly when the sticky counter is in `[1, 31]`; a sticky hit returns that
queue's head and increments the counter without moving the cursor; a sticky
miss, or a counter of 0 or 32, resets the counter to 0 and runs the
round-robin scan, whose success sets the counter to 1 — so the counter
never exceeds 32, bounding consecutive same-index pops by 32. -/
theorem c4_sticky_pop (pmax : Nat) (c : Consumer) (chans : List Chan) :
    (1 ≤ c.cur_index_read_cnt ∧ c.cur_index_read_cnt ≤ 31 →
      (∀ (id : Nat) (ch : Chan) (v : Nat) (rest : List Nat),
        c.queue_vec[c.cur_index]? = some (some id) →
        chans[id]? = some ch → ch.buf = v :: rest →
        Consumer.pop pmax c chans =
          ⟨.ok (some v),
            { c with cur_index_read_cnt := c.cur_index_read_cnt + 1 },
            chans.set id ⟨ch.cap, rest⟩⟩) ∧
      (∀ (id : Nat) (ch : Chan),
        c.queue_vec[c.cur_index]? = some (some id) →
        chans[id]? = some ch → ch.buf = [] →
        Consumer.pop pmax c chans =
          Consumer.popScan pmax { c with cur_index_read_cnt := 0 } chans)) ∧
    (c.cur_index_read_cnt = 0 ∨ c.cur_index_read_cnt = 32 →
      Consumer.pop pmax c chans =
        Consumer.popScan pmax { c with cur_index_read_cnt := 0 } chans) ∧
    ((∃ v, (Consumer.popScan pmax
        { c with cur_index_read_cnt := 0 } chans).res = .ok (some v)) →
      (Consumer.popScan pmax
        { c with cur_index_read_cnt := 0 } chans).cons.cur_index_read_cnt
        = 1) ∧
    (¬ (∃ v, (Consumer.popScan pmax
        { c with cur_index_read_cnt := 0 } chans).res = .ok (some v)) →
      (Consumer.popScan pmax
        { c with cur_index_read_cnt := 0 } chans).cons.cur_index_read_cnt
        = 0) ∧
    (c.cur_index_read_cnt ≤ 32 →
      (Consumer.pop pmax c chans).cons.cur_index_read_cnt ≤ 32) := by
  have hscan := popScan_res_cnt pmax { c with cur_index_read_cnt := 0 } chans
  refine ⟨?_, ?_, hscan.1, hscan.2, ?_⟩
  · intro hcnt
    have hcond : 0 < c.cur_index_read_cnt ∧
        c.cur_index_read_cnt < kMaxStickyReadCnt := by
      rw [kMaxStickyReadCnt]
      omega
    constructor
    · intro id ch v rest hrow hch hbuf
      rw [Consumer.pop, if_pos hcond, hrow]
      dsimp only
      rw [hch]
      dsimp only
      rw [Chan.pop, hbuf]
    · intro id ch hrow hch hbuf
      rw [Consumer.pop, if_pos hcond, hrow]
      dsimp only
      rw [hch]
      dsimp only
      rw [Chan.pop, hbuf]
  · intro hcnt
    have hcond : ¬ (0 < c.cur_index_read_cnt ∧
        c.cur_index_read_cnt < kMaxStickyReadCnt) := by
      rw [kMaxStickyReadCnt]
      omega
    rw [Consumer.pop, if_neg hcond]
  · intro hle
    have hcases : ∀ (c0 : Consumer),
        (Consumer.popScan pmax c0 chans).cons.cur_index_read_cnt = 1 ∨
        (Consumer.popScan pmax c0 chans).cons.cur_index_read_cnt =
          c0.cur_index_read_cnt := by
      intro c0
      by_cases hex : ∃ v, (Consumer.popScan pmax c0 chans).res = .ok (some v)
      · exact .inl ((popScan_res_cnt pmax c0 chans).1 hex)
      · exact .inr ((popScan_res_cnt pmax c0 chans).2 hex)
    by_cases hcond : 0 < c.cur_index_read_cnt ∧
        c.cur_index_read_cnt < kMaxStickyReadCnt
    · rw [Consumer.pop, if_pos hcond]
      rw [kMaxStickyReadCnt] at hcond
      split
      · exact hle
      · exact hle
      · split
        · exact hle
        · split
          · show c.cur_index_read_cnt + 1 ≤ 32
            omega
          · rcases hcases { c with cur_index_read_cnt := 0 } with hh | hh
            · rw [hh]
              omega
            · rw [hh]
              exact Nat.zero_le 32
    · rw [Consumer.pop, if_neg hcond]
      rcases hcases { c with cur_index_read_cnt := 0 } with hh | hh
      · rw [hh]
        omega
      · rw [hh]
        exact Nat.zero_le 32

/-- Witness for C4: a sticky hit at counter 1 increments the counter to 2
and pops the sticky queue without scanning. -/
theorem c4_sticky_pop_witness :
    Consumer.pop 1 ⟨0, 0, 1, [some 0]⟩ [⟨1, [7]⟩] =
      ⟨.ok (some 7), ⟨0, 0, 2, [some 0]⟩, [⟨1, []⟩]⟩ :=
  ((c4_sticky_pop 1 ⟨0, 0, 1, [some 0]⟩ [⟨1, [7]⟩]).1
    (by decide)).1 0 ⟨1, [7]⟩ 7 [] rfl rfl rfl

/-! Section: Claim C8: PopWait polling loop -/

theorem popWaitAux_terminates (pmax : Nat) (t : Nat) :
    ∀ (fuel sleepMs : Nat) (c : Consumer) (chans : List Chan),
    sleepMs ≤ t → t - sleepMs < fuel →
    Consumer.popWaitAux pmax (t : Int) fuel sleepMs c chans ≠ none := by
  intro fuel
  induction fuel with
  | zero =>
    intro sleepMs c chans hle hlt
    omega
  | succ f ih =>
    intro sleepMs c chans hle hlt
    simp only [Consumer.popWaitAux]
    split
    · exact fun h => Option.noConfusion h
    · exact fun h => Option.noConfusion h
    · by_cases hstop : (0 : Int) ≤ (t : Int) ∧ (t : Int) ≤ (sleepMs : Int)
      · rw [if_pos hstop]
        exact fun h => Option.noConfusion h
      · rw [if_neg hstop]
        have hslt : sleepMs < t := by
          rcases Nat.lt_or_ge sleepMs t with hx | hx
          · exact hx
          · exfalso
            exact hstop ⟨Int.ofNat_nonneg t, by exact_mod_cast hx⟩
        exact ih (sleepMs + 1) _ _ (by omega) (by omega)

theorem popWaitAux_all_fail (pmax : Nat) (t : Nat) :
    ∀ (d sleepMs : Nat) (c : Consumer) (chans : List Chan),
    sleepMs + d = t →
    (∀ k, k ≤ d → (popSeq pmax k c chans).res = .ok none) →
    Consumer.popWaitAux pmax (t : Int) (d + 1) sleepMs c chans =
      some ⟨.ok none, (popSeq pmax d c chans).cons,
        (popSeq pmax d c chans).chans⟩ := by
  intro d
  induction d with
  | zero =>
    intro sleepMs c chans hsum hall
    have h0 : (Consumer.pop pmax c chans).res = .ok none := hall 0 (by omega)
    simp only [Consumer.popWaitAux]
    split
    · rename_i heq
      rw [heq] at h0
      exact absurd h0 (fun hx => Except.noConfusion hx)
    · rename_i heq
      rw [heq] at h0
      injection h0 with h0
      exact absurd h0 (fun hx => Option.noConfusion hx)
    · rw [if_pos ⟨Int.ofNat_nonneg t, by omega⟩]
      rfl
  | succ d ih =>
    intro sleepMs c chans hsum hall
    have h0 : (Consumer.pop pmax c chans).res = .ok none := by
      have := hall 0 (by omega)
      exact this
    simp only [Consumer.popWaitAux]
    split
    · rename_i heq
      rw [heq] at h0
      exact absurd h0 (fun hx => Except.noConfusion hx)
    · rename_i heq
      rw [heq] at h0
      injection h0 with h0
      exact absurd h0 (fun hx => Option.noConfusion hx)
    · rw [if_neg (by omega)]
      have hrec := ih (sleepMs + 1) (Consumer.pop pmax c chans).cons
        (Consumer.pop pmax c chans).chans (by omega)
        (fun k hk => hall (k + 1) (by omega))
      exact hrec

theorem popWaitAux_first_success (pmax : Nat) (timeout : Int) :
    ∀ (K sleepMs fuel : Nat) (c : Consumer) (chans : List Chan),
    K < fuel →
    (0 ≤ timeout → ((sleepMs : Int) + (K : Int)) ≤ timeout) →
    (∀ k, k < K → (popSeq pmax k c chans).res = .ok none) →
    (∃ v, (popSeq pmax K c chans).res = .ok (some v)) →
    Consumer.popWaitAux pmax timeout fuel sleepMs c chans =
      some (popSeq pmax K c chans) := by
  intro K
  induction K with
  | zero =>
    intro sleepMs fuel c chans hfuel hto hfail hsucc
    obtain ⟨v, hv⟩ := hsucc
    cases fuel with
    | zero => omega
    | succ f =>
      simp only [Consumer.popWaitAux]
      split
      · rename_i heq
        rw [show popSeq pmax 0 c chans = Consumer.pop pmax c chans from rfl,
          heq] at hv
        exact absurd hv (fun hx => Except.noConfusion hx)
      · rename_i heq
        rfl
      · rename_i heq
        rw [show popSeq pmax 0 c chans = Consumer.pop pmax c chans from rfl,
          heq] at hv
        injection hv with hv
        exact absurd hv (fun hx => Option.noConfusion hx)
  | succ K ih =>
    intro sleepMs fuel c chans hfuel hto hfail hsucc
    cases fuel with
    | zero => omega
    | succ f =>
      have h0 : (Consumer.pop pmax c chans).res = .ok none :=
        hfail 0 (by omega)
      simp only [Consumer.popWaitAux]
      split
      · rename_i heq
        rw [heq] at h0
        exact absurd h0 (fun hx => Except.noConfusion hx)
      · rename_i heq
        rw [heq] at h0
        injection h0 with h0
        exact absurd h0 (fun hx => Option.noConfusion hx)
      · rw [if_neg (fun ⟨h1, h2⟩ => by
          have := hto h1
          omega)]
        exact ih (sleepMs + 1) f (Consumer.pop pmax c chans).cons
          (Consumer.pop pmax c chans).chans (by omega)
          (fun h1 => by have := hto h1; push_cast; push_cast at this; omega)
          (fun k hk => hfail (k + 1) (by omega)) hsucc

theorem popWaitAux_neg_never_false (pmax : Nat) (timeout : Int)
    (hneg : timeout < 0) :
    ∀ (fuel sleepMs : Nat) (c : Consumer) (chans : List Chan)
      (out : PopOut),
    Consumer.popWaitAux pmax timeout fuel sleepMs c chans = some out →
    out.res ≠ .ok none := by
  intro fuel
  induction fuel with
  | zero =>
    intro sleepMs c chans out h
    exact absurd h (fun hx => Option.noConfusion hx)
  | succ f ih =>
    intro sleepMs c chans out h
    simp only [Consumer.popWaitAux] at h
    split at h
    · rename_i heq
      injection h with h
      subst h
      rw [heq]
      exact fun hx => Except.noConfusion hx
    · rename_i heq
      injection h with h
      subst h
      rw [heq]
      intro hx
      injection hx with hx
      exact Option.noConfusion hx
    · rw [if_neg (fun ⟨h1, _⟩ => absurd hneg (by omega))] at h
      exact ih (sleepMs + 1) _ _ out h

/-- Claim C8: for a timeout `t ≥ 0`, `PopWait` performs at most `t + 1` `Pop`
attempts (fuel `t + 1` always suffices), with `t = 0` giving exactly one
attempt; it returns `false` exactly after the first `t + 1` attempts all
fail, returns `true` at the first successful attempt, and with a negative
timeout it never returns `false`. -/
theorem c8_pop_wait (pmax : Nat) (c : Consumer) (chans : List Chan) :
    (∀ t : Nat, Consumer.popWait pmax (t + 1) c chans (t : Int) ≠ none) ∧
    (Consumer.popWait pmax 1 c chans 0 =
      some (Consumer.pop pmax c chans)) ∧
    (∀ t : Nat, (∀ k, k ≤ t → (popSeq pmax k c chans).res = .ok none) →
      Consumer.popWait pmax (t + 1) c chans (t : Int) =
        some ⟨.ok none, (popSeq pmax t c chans).cons,
          (popSeq pmax t c chans).chans⟩) ∧
    (∀ (timeout : Int) (K fuel : Nat), K < fuel →
      (0 ≤ timeout → (K : Int) ≤ timeout) →
      (∀ k, k < K → (popSeq pmax k c chans).res = .ok none) →
      (∃ v, (popSeq pmax K c chans).res = .ok (some v)) →
      Consumer.popWait pmax fuel c chans timeout =
        some (popSeq pmax K c chans)) ∧
    (∀ (timeout : Int), timeout < 0 → ∀ (fuel : Nat) (out : PopOut),
      Consumer.popWait pmax fuel c chans timeout = some out →
      out.res ≠ .ok none) := by
  refine ⟨?_, ?_, ?_, ?_, ?_⟩
  · intro t
    exact popWaitAux_terminates pmax t (t + 1) 0 c chans (by omega)
      (by omega)
  · have h := popWaitAux_first_success pmax 0
    rw [Consumer.popWait]
    simp only [Consumer.popWaitAux]
    split
    · rfl
    · rfl
    · rename_i heq
      rw [if_pos ⟨le_refl 0, by omega⟩]
      cases hout : Consumer.pop pmax c chans with
      | mk res cons chs =>
        rw [hout] at heq
        simp only at heq
        rw [heq]
  · intro t hall
    exact popWaitAux_all_fail pmax t t 0 c chans (by omega) hall
  · intro timeout K fuel hfuel hto hfail hsucc
    exact popWaitAux_first_success pmax timeout K 0 fuel c chans hfuel
      (fun h1 => by simpa using hto h1) hfail hsucc
  · intro timeout hneg fuel out h
    exact popWaitAux_neg_never_false pmax timeout hneg fuel 0 c chans out h

/-- Witness for C8: on an empty matrix column the single attempt allowed by
timeout 0 fails and `PopWait` returns `false` immediately. -/
theorem c8_pop_wait_witness :
    Consumer.popWait 2 1 ⟨0, neg1U, 0, [some 0, none]⟩ [⟨1, []⟩] 0 =
      some ⟨.ok none,
        (popSeq 2 0 ⟨0, neg1U, 0, [some 0, none]⟩ [⟨1, []⟩]).cons,
        (popSeq 2 0 ⟨0, neg1U, 0, [some 0, none]⟩ [⟨1, []⟩]).chans⟩ :=
  (c8_pop_wait 2 ⟨0, neg1U, 0, [some 0, none]⟩ [⟨1, []⟩]).2.2.1 0
    (fun k hk => by
      have hk0 : k = 0 := Nat.le_zero.mp hk
      subst hk0
      rfl)

/-! Section: Claim C3: the scan is not bounds-safe — the second loop can read past
the row (code bug) -/

/-- A reachable 1×1 dispatch queue (`kMaxProducers = kMaxConsumers = 1`,
queue capacity 1): one producer, then one consumer registered. -/
def dqOne : DQ :=
  (registerConsumer 1 1 (registerProducer 1 1 (DQ.init 1)).2).2

theorem reach_dqOne : Reach 1 1 dqOne :=
  Reach.regC (Reach.regP (Reach.init 1) rfl) rfl

/-- Claim C3 (refutation of the bounds claim, exhibiting the code bug): in the
reachable state `dqOne` the consumer's very first `Pop` — all wired
channels empty, `cur_index_ = -1U` — reads `queue_vec_[1]` past the row of
length `kMaxProducers = 1` in the second scan loop (whose bound is
`last_index = -1U`, not `kMaxProducers`), instead of returning `false`;
symmetrically, after a directed push fills the producer's only channel
without touching its `-1U` cursor, the first fan-out `Push` reads
`queue_vec_[1]` past the row of length `kMaxConsumers = 1` instead of
returning `false`. -/
theorem c3_scan_oob :
    Reach 1 1 dqOne ∧
    dqOne.consumers[0]? = some ⟨0, neg1U, 0, [some 0]⟩ ∧
    dqOne.producers[0]? = some ⟨0, true, neg1U, [some 0]⟩ ∧
    (Consumer.pop 1 ⟨0, neg1U, 0, [some 0]⟩ dqOne.chans).res =
      .error .oobRead ∧
    (Consumer.pop 1 ⟨0, neg1U, 0, [some 0]⟩ dqOne.chans).cons.cur_index =
      1 ∧
    Producer.pushIdx 1 ⟨0, true, neg1U, [some 0]⟩ dqOne.chans 0 5 =
      ⟨.ok true, ⟨0, true, neg1U, [some 0]⟩, [⟨1, [5]⟩]⟩ ∧
    (Producer.push 1 ⟨0, true, neg1U, [some 0]⟩ [⟨1, [5]⟩] 7).res =
      .error .oobRead ∧
    (Producer.push 1 ⟨0, true, neg1U, [some 0]⟩ [⟨1, [5]⟩] 7).prod.cur_index
      = 1 :=
  ⟨reach_dqOne, rfl, rfl, rfl, rfl, rfl, rfl, rfl⟩

/-! Section: Claim C2: round-robin fan-out push -/

/-- Row entry `j` is wired to a queue that currently accepts a push. -/
def entryAccepts (chans : List Chan) (row : List (Option Nat)) (j : Nat) :
    Bool :=
  match row[j]? with
  | some (some id) =>
    match chans[id]? with
    | some ch => decide (ch.buf.length < ch.cap)
    | _ => false
  | _ => false

/-- The scan order the claim describes for a row whose wired entries are
exactly the columns below `k`: first `cursor + 1, …` up to the end of the
row truncated at the first unwired entry, then `0, …, cursor` truncated the
same way. -/
def scanOrder (cursor k : Nat) : List Nat :=
  (List.range k).filter (fun i => decide (cursor < i)) ++
    (List.range k).filter (fun i => decide (i ≤ cursor))

theorem entryAccepts_eq {chans : List Chan} {row : List (Option Nat)}
    {j id : Nat} {ch : Chan} (h1 : row[j]? = some (some id))
    (h2 : chans[id]? = some ch) :
    entryAccepts chans row j = decide (ch.buf.length < ch.cap) := by
  unfold entryAccepts
  rw [h1]
  dsimp only
  rw [h2]

theorem find?_append_some {l1 l2 : List Nat} {p : Nat → Bool} {a : Nat}
    (h : l1.find? p = some a) : (l1 ++ l2).find? p = some a := by
  induction l1 with
  | nil => exact Option.noConfusion h
  | cons x xs ih =>
    by_cases hx : p x
    · rw [List.find?_cons_of_pos _ hx] at h
      rw [List.cons_append, List.find?_cons_of_pos _ hx]
      exact h
    · rw [List.find?_cons_of_neg _ hx] at h
      rw [List.cons_append, List.find?_cons_of_neg _ hx]
      exact ih h

theorem find?_append_none {l1 l2 : List Nat} {p : Nat → Bool}
    (h : l1.find? p = none) : (l1 ++ l2).find? p = l2.find? p := by
  induction l1 with
  | nil => rfl
  | cons x xs ih =>
    by_cases hx : p x
    · rw [List.find?_cons_of_pos _ hx] at h
      exact Option.noConfusion h
    · rw [List.find?_cons_of_neg _ hx] at h
      rw [List.cons_append, List.find?_cons_of_neg _ hx]
      exact ih h

theorem find?_filter_range_none {k : Nat} {q p : Nat → Bool}
    (h : ((List.range k).filter q).find? p = none) :
    ∀ t, t < k → q t = true → p t = false := by
  intro t ht hq
  have hmem : t ∈ (List.range k).filter q :=
    List.mem_filter.mpr ⟨List.mem_range.mpr ht, hq⟩
  have := List.find?_eq_none.mp h t hmem
  simpa using this

theorem find?_filter_range {k : Nat} {q p : Nat → Bool} {j : Nat}
    (h : ((List.range k).filter q).find? p = some j) :
    j < k ∧ q j = true ∧ p j = true ∧
      ∀ t, t < j → q t = true → p t = false := by
  induction k with
  | zero => exact Option.noConfusion h
  | succ k ih =>
    rw [List.range_succ, List.filter_append] at h
    cases hfk : ((List.range k).filter q).find? p with
    | some a =>
      rw [find?_append_some hfk] at h
      injection h with h
      subst h
      obtain ⟨h1, h2, h3, h4⟩ := ih hfk
      exact ⟨Nat.lt_succ_of_lt h1, h2, h3, h4⟩
    | none =>
      rw [find?_append_none hfk] at h
      by_cases hqk : q k
      · rw [show List.filter q [k] = [k] by simp [hqk]] at h
        by_cases hpk : p k
        · rw [List.find?_cons_of_pos _ hpk] at h
          injection h with h
          exact ⟨by omega, h ▸ hqk, h ▸ hpk,
            h ▸ find?_filter_range_none hfk⟩
        · rw [List.find?_cons_of_neg _ hpk] at h
          exact Option.noConfusion h
      · rw [show List.filter q [k] = [] by simp [hqk]] at h
        exact Option.noConfusion h

theorem pushLoop1_finds (row : List (Option Nat)) (v : Nat)
    (chans : List Chan) (k : Nat)
    (hw : ∀ t, t < k →
      ∃ id, row[t]? = some (some id) ∧ id < chans.length) :
    ∀ (fuel i j : Nat), fuel = row.length - i → i ≤ j → j < k →
    k ≤ row.length →
    entryAccepts chans row j = true →
    (∀ t, i ≤ t → t < j → entryAccepts chans row t = false) →
    ∃ id ch, row[j]? = some (some id) ∧ chans[id]? = some ch ∧
      ch.buf.length < ch.cap ∧
      pushLoop1 row v chans fuel i =
        .ok j (chans.set id ⟨ch.cap, ch.buf ++ [v]⟩) := by
  intro fuel
  induction fuel with
  | zero =>
    intro i j hfuel hij hjk hkl hacc hbefore
    omega
  | succ f ih =>
    intro i j hfuel hij hjk hkl hacc hbefore
    have hik : i < k := Nat.lt_of_le_of_lt hij hjk
    obtain ⟨idi, hrowi, hidi⟩ := hw i hik
    obtain ⟨chi, hchi⟩ : ∃ chi, chans[idi]? = some chi :=
      ⟨chans[idi], List.getElem?_eq_getElem hidi⟩
    by_cases hije : i = j
    · subst hije
      rw [entryAccepts_eq hrowi hchi] at hacc
      have haccept : chi.buf.length < chi.cap := of_decide_eq_true hacc
      refine ⟨idi, chi, hrowi, hchi, haccept, ?_⟩
      unfold pushLoop1
      rw [hrowi]
      dsimp only
      rw [hchi]
      dsimp only
      simp [Chan.push, haccept]
    · have hfi := hbefore i (Nat.le_refl i) (by omega)
      rw [entryAccepts_eq hrowi hchi] at hfi
      have hnacc : ¬ chi.buf.length < chi.cap := of_decide_eq_false hfi
      have hstep : pushLoop1 row v chans (f + 1) i =
          pushLoop1 row v chans f (i + 1) := by
        conv_lhs => unfold pushLoop1
        rw [hrowi]
        dsimp only
        rw [hchi]
        dsimp only
        simp [Chan.push, hnacc]
      rw [hstep]
      exact ih (i + 1) j (by omega) (by omega) hjk hkl hacc
        (fun t ht1 ht2 => hbefore t (by omega) ht2)

theorem pushLoop1_fails (row : List (Option Nat)) (v : Nat)
    (chans : List Chan) (k : Nat)
    (hw : ∀ t, t < k →
      ∃ id, row[t]? = some (some id) ∧ id < chans.length)
    (hn : ∀ t, k ≤ t → t < row.length → row[t]? = some none) :
    ∀ (fuel i : Nat), fuel = row.length - i →
    (∀ t, i ≤ t → t < k → entryAccepts chans row t = false) →
    ∃ m, pushLoop1 row v chans fuel i = .fail m := by
  intro fuel
  induction fuel with
  | zero =>
    intro i _ _
    exact ⟨i, rfl⟩
  | succ f ih =>
    intro i hfuel hall
    have hilen : i < row.length := by omega
    by_cases hik : i < k
    · obtain ⟨idi, hrowi, hidi⟩ := hw i hik
      obtain ⟨chi, hchi⟩ : ∃ chi, chans[idi]? = some chi :=
        ⟨chans[idi], List.getElem?_eq_getElem hidi⟩
      have hfi := hall i (Nat.le_refl i) hik
      rw [entryAccepts_eq hrowi hchi] at hfi
      have hnacc : ¬ chi.buf.length < chi.cap := of_decide_eq_false hfi
      have hstep : pushLoop1 row v chans (f + 1) i =
          pushLoop1 row v chans f (i + 1) := by
        conv_lhs => unfold pushLoop1
        rw [hrowi]
        dsimp only
        rw [hchi]
        dsimp only
        simp [Chan.push, hnacc]
      rw [hstep]
      exact ih (i + 1) (by omega) (fun t ht htk => hall t (by omega) htk)
    · have hrowi := hn i (by omega) hilen
      refine ⟨i, ?_⟩
      unfold pushLoop1
      rw [hrowi]

theorem pushLoop2_finds (row : List (Option Nat)) (v : Nat)
    (chans : List Chan) (k : Nat)
    (hw : ∀ t, t < k →
      ∃ id, row[t]? = some (some id) ∧ id < chans.length) :
    ∀ (fuel i j : Nat), i ≤ j → j < k → k ≤ row.length → j - i < fuel →
    entryAccepts chans row j = true →
    (∀ t, i ≤ t → t < j → entryAccepts chans row t = false) →
    ∃ id ch, row[j]? = some (some id) ∧ chans[id]? = some ch ∧
      ch.buf.length < ch.cap ∧
      pushLoop2 row v chans fuel i =
        .ok j (chans.set id ⟨ch.cap, ch.buf ++ [v]⟩) := by
  intro fuel
  induction fuel with
  | zero =>
    intro i j hij hjk hkl hfuel hacc hbefore
    omega
  | succ f ih =>
    intro i j hij hjk hkl hfuel hacc hbefore
    have hik : i < k := Nat.lt_of_le_of_lt hij hjk
    obtain ⟨idi, hrowi, hidi⟩ := hw i hik
    obtain ⟨chi, hchi⟩ : ∃ chi, chans[idi]? = some chi :=
      ⟨chans[idi], List.getElem?_eq_getElem hidi⟩
    by_cases hije : i = j
    · subst hije
      rw [entryAccepts_eq hrowi hchi] at hacc
      have haccept : chi.buf.length < chi.cap := of_decide_eq_true hacc
      refine ⟨idi, chi, hrowi, hchi, haccept, ?_⟩
      unfold pushLoop2
      rw [hrowi]
      dsimp only
      rw [hchi]
      dsimp only
      simp [Chan.push, haccept]
    · have hfi := hbefore i (Nat.le_refl i) (by omega)
      rw [entryAccepts_eq hrowi hchi] at hfi
      have hnacc : ¬ chi.buf.length < chi.cap := of_decide_eq_false hfi
      have hstep : pushLoop2 row v chans (f + 1) i =
          pushLoop2 row v chans f (i + 1) := by
        conv_lhs => unfold pushLoop2
        rw [hrowi]
        dsimp only
        rw [hchi]
        dsimp only
        simp [Chan.push, hnacc]
      rw [hstep]
      exact ih (i + 1) j (by omega) hjk hkl (by omega) hacc
        (fun t ht1 ht2 => hbefore t (by omega) ht2)

/-- Claim C2: for an active handle whose row is wired contiguously on the
columns below `k`, if the first accepting entry in the claimed wrap-around
order (`cursor+1 … end`, then `0 … cursor`, each half truncated at the
first unwired entry) is column `j`, then fan-out push returns `true`,
enqueues the value in exactly that queue, and sets the cursor to `j`. -/
theorem c2_fanout_push (cmax : Nat) (p : Producer) (chans : List Chan)
    (v : Nat) (k j : Nat)
    (hreg : p.is_registered = true)
    (hrl : p.queue_vec.length = cmax)
    (hk : k ≤ cmax)
    (hw : ∀ t, t < k →
      ∃ id, p.queue_vec[t]? = some (some id) ∧ id < chans.length)
    (hn : ∀ t, k ≤ t → t < cmax → p.queue_vec[t]? = some none)
    (hfirst : (scanOrder p.cur_index k).find?
      (entryAccepts chans p.queue_vec) = some j) :
    ∃ id ch, p.queue_vec[j]? = some (some id) ∧ chans[id]? = some ch ∧
      ch.buf.length < ch.cap ∧
      Producer.push cmax p chans v =
        ⟨.ok true, { p with cur_index := j },
          chans.set id ⟨ch.cap, ch.buf ++ [v]⟩⟩ := by
  have hnreg : ¬ p.is_registered = false := by simp [hreg]
  have hn' : ∀ t, k ≤ t → t < p.queue_vec.length →
      p.queue_vec[t]? = some none := fun t h1 h2 => hn t h1 (hrl ▸ h2)
  rw [scanOrder] at hfirst
  cases hf1 : ((List.range k).filter
      (fun i => decide (p.cur_index < i))).find?
      (entryAccepts chans p.queue_vec) with
  | some a =>
    rw [find?_append_some hf1] at hfirst
    injection hfirst with hfirst
    subst hfirst
    obtain ⟨hjk, hcj, hacc, hbef⟩ := find?_filter_range hf1
    have hcj' : p.cur_index < a := of_decide_eq_true hcj
    obtain ⟨id, ch, h1, h2, h3, h4⟩ := pushLoop1_finds p.queue_vec v chans k
      hw (cmax - (p.cur_index + 1)) (p.cur_index + 1) a
      (by omega) (by omega) hjk (by omega) hacc
      (fun t ht1 ht2 => by
        have := hbef t ht2 (by simp; omega)
        exact this)
    refine ⟨id, ch, h1, h2, h3, ?_⟩
    rw [Producer.push, if_neg hnreg, h4]
  | none =>
    rw [find?_append_none hf1] at hfirst
    have hfail1 : ∀ t, p.cur_index < t → t < k →
        entryAccepts chans p.queue_vec t = false := by
      intro t h1 h2
      exact find?_filter_range_none hf1 t h2 (by simpa using h1)
    obtain ⟨hjk, hcj, hacc, hbef⟩ := find?_filter_range hfirst
    have hcj' : j ≤ p.cur_index := of_decide_eq_true hcj
    obtain ⟨m, hm⟩ := pushLoop1_fails p.queue_vec v chans k hw hn'
      (cmax - (p.cur_index + 1)) (p.cur_index + 1) (by omega)
      (fun t ht1 ht2 => hfail1 t (by omega) ht2)
    obtain ⟨id, ch, h1, h2, h3, h4⟩ := pushLoop2_finds p.queue_vec v chans k
      hw (p.cur_index + 1) 0 j (Nat.zero_le j) hjk (by omega) (by omega)
      hacc (fun t ht1 ht2 => by
        have := hbef t ht2 (by simp; omega)
        exact this)
    refine ⟨id, ch, h1, h2, h3, ?_⟩
    rw [Producer.push, if_neg hnreg, hm, h4]

/-- Witness for C2: cursor 0, both columns wired, column 0 full and column
1 free — the first accepting entry in the wrap order is 1, the value lands
there and the cursor moves to 1. -/
theorem c2_fanout_push_witness :
    (scanOrder 0 2).find?
      (entryAccepts [⟨1, [9]⟩, ⟨1, []⟩] [some 0, some 1]) = some 1 ∧
    Producer.push 2 ⟨0, true, 0, [some 0, some 1]⟩ [⟨1, [9]⟩, ⟨1, []⟩] 7 =
      ⟨.ok true, ⟨0, true, 1, [some 0, some 1]⟩,
        [⟨1, [9]⟩, ⟨1, [7]⟩]⟩ := by
  refine ⟨by decide, ?_⟩
  obtain ⟨id, ch, h1, h2, h3, h4⟩ := c2_fanout_push 2
    ⟨0, true, 0, [some 0, some 1]⟩ [⟨1, [9]⟩, ⟨1, []⟩] 7 2 1 rfl rfl
    (by omega)
    (by
      intro t ht
      match t, ht with
      | 0, _ => exact ⟨0, rfl, by decide⟩
      | 1, _ => exact ⟨1, rfl, by decide⟩)
    (by omega)
    (by decide)
  have hid : id = 1 := by
    have h5 : (some (some 1) : Option (Option Nat)) = some (some id) := h1
    injection h5 with h6
    injection h6 with h7
    exact h7.symm
  subst hid
  have hch : ch = ⟨1, []⟩ := by
    have h5 : (some (⟨1, []⟩ : Chan) : Option Chan) = some ch := h2
    injection h5 with h6
    exact h6.symm
  subst hch
  exact h4

end CCB
